import Mathlib

/-!
# FontEngine (flare-engine): text measurement, word wrap and layout

A shallow embedding of `src/FontEngine.cpp`.

* `std::string` is its list of characters (`Str`); `size_t` cursors are `Nat`, and
  `std::string::npos` is `none`.
* `int` values are `Int` (signed overflow is undefined behaviour in the source and is not
  modelled).
* `calc_width` (the backend query `TTF_SizeUTF8` on the active font) and `getLineHeight()`
  only read the active style, which none of the functions below changes; they are the
  parameters `cw : Str → Int` and `lh : Int`.
* A `std::stringstream` that is only ever appended to after `str("")` is the string it holds.
-/

namespace FontEngine

/-- A `std::string`, as the list of its characters. -/
abbrev Str := List Char

/-- The local `char newline = 10` of `calc_size`. -/
def newline : Char := Char.ofNat 10

/-- The local `char space = 32` of `calc_size` and of the word-wrapping `render`. -/
def space : Char := Char.ofNat 32

/-- The `Point` returned by `calc_size`, and the `x`, `y` of a destination `Rect`. -/
structure Point where
  x : Int
  y : Int
deriving DecidableEq, Repr

/-- An RGB `Color`. -/
structure Color where
  r : Nat
  g : Nat
  b : Nat
deriving DecidableEq, Repr

/-- Modelled from the spec: the constant `FONT_WHITE` is declared outside `src/`; the spec
gives the white sentinel as `(255,255,255)`. -/
def FONT_WHITE : Color := ⟨255, 255, 255⟩

/-- Modelled from the spec: the constant `FONT_BLACK` is declared outside `src/`; the spec
calls it the fixed "black" colour of the shadow pass. -/
def FONT_BLACK : Color := ⟨0, 0, 0⟩

/-- Modelled from the spec: the justification constants are declared outside `src/`; the
spec lists the three variants `Left | Right | Center`, here three distinct `int` values. -/
def JUSTIFY_LEFT : Int := 0

/-- Modelled from the spec: see `JUSTIFY_LEFT`. -/
def JUSTIFY_RIGHT : Int := 1

/-- Modelled from the spec: see `JUSTIFY_LEFT`. -/
def JUSTIFY_CENTER : Int := 2

/-! ## `std::string` primitives -/

/-- `s.find_first_of(c, pos)`: the index of the first `c` at or after `pos`, `none` for
`npos`. -/
def find_first_of (s : Str) (c : Char) (pos : Nat) : Option Nat :=
  if c ∈ s.drop pos then some (pos + (s.drop pos).indexOf c) else none

/-- `s.substr(pos, n)` for `pos ≤ s.size()`: at most `n` characters from `pos`. -/
def substr (s : Str) (pos n : Nat) : Str :=
  (s.drop pos).take n

/-! ## Helpers of `UtilsParsing` -/

/-- Modelled from the spec: `getNextToken` lives in `UtilsParsing`, outside `src/`. The spec
describes a one-pass tokenizer over the space separator that reads tokens until the end of
input: the token runs from `cursor` to the next separator and the cursor moves just past
that separator; when no separator is left the cursor becomes `npos` and the token is
empty. The result is the token and the new cursor. -/
def getNextToken (s : Str) (cursor : Nat) (separator : Char) : Str × Option Nat :=
  match find_first_of s separator cursor with
  | none => ([], none)
  | some seppos => (substr s cursor (seppos - cursor), some (seppos + 1))

/-- Modelled from the spec: `trim` lives in `UtilsParsing`, outside `src/`. The spec has
`calc_size` "trim trailing whitespace" from the last line before measuring it. -/
def trim (s : Str) : Str :=
  s.rdropWhile Char.isWhitespace

/-! ## The tokenizing loop -/

/-- The variant of the `while (cursor != std::string::npos)` loops: `0` at `npos`, else
one more than the distance from the cursor to the end of `fulltext`. -/
def cursorMeasure (fulltext : Str) : Option Nat → Nat
  | none => 0
  | some c => fulltext.length - c + 1

/-- Each call of `getNextToken` strictly lowers the loop variant: the cursor either becomes
`npos` or moves past a separator that lies inside `fulltext`. -/
theorem getNextToken_measure (fulltext : Str) (c : Nat) (sep : Char) :
    cursorMeasure fulltext (getNextToken fulltext c sep).2 < cursorMeasure fulltext (some c) := by
  simp only [getNextToken, find_first_of]
  by_cases hm : sep ∈ fulltext.drop c
  · have hlt := List.indexOf_lt_length.2 hm
    simp only [List.length_drop] at hlt
    simp only [hm, if_true, cursorMeasure]
    omega
  · simp [hm, cursorMeasure]

/-! ## `calc_size` -/

/-- The loop-carried locals of `calc_size` other than `cursor` and `next_word`. -/
structure SizeState where
  builder : Str
  builder_prev : Str
  height : Int
  max_width : Int
deriving DecidableEq, Repr

/-- One pass through the body of the `while` loop of `calc_size` (lines 163-181) for the
token `next_word`. -/
def calc_size_step (cw : Str → Int) (lh : Int) (width : Int) (next_word : Str)
    (st : SizeState) : SizeState :=
  let builder := st.builder ++ next_word
  if cw builder > width then
    { builder := next_word ++ [space]
      builder_prev := []
      height := st.height + lh
      max_width := if cw st.builder_prev > st.max_width then cw st.builder_prev
                   else st.max_width }
  else
    { builder := builder ++ [space]
      builder_prev := builder ++ [space]
      height := st.height
      max_width := st.max_width }

/-- The `while (cursor != std::string::npos)` loop of `calc_size` (lines 162-184). -/
def calc_size_loop (cw : Str → Int) (lh : Int) (width : Int) (fulltext : Str)
    (cursor : Option Nat) (next_word : Str) (st : SizeState) : SizeState :=
  match cursor with
  | none => st
  | some c =>
    calc_size_loop cw lh width fulltext (getNextToken fulltext c space).2
      (getNextToken fulltext c space).1 (calc_size_step cw lh width next_word st)
termination_by cursorMeasure fulltext cursor
decreasing_by exact getNextToken_measure fulltext _ space

/-- The part of `calc_size` after the newline test (lines 147-193): text without a newline. -/
def calc_size_line (cw : Str → Int) (lh : Int) (width : Int) (text : Str) : Point :=
  let fulltext := text ++ [space]
  let st := calc_size_loop cw lh width fulltext (getNextToken fulltext 0 space).2
    (getNextToken fulltext 0 space).1 ⟨[], [], 0, 0⟩
  let height := st.height + lh
  let builder := trim st.builder
  { x := if cw builder > st.max_width then cw builder else st.max_width
    y := height }

/-- `FontEngine::calc_size(text_with_newlines, width)`. -/
def calc_size (cw : Str → Int) (lh : Int) (width : Int) (text : Str) : Point :=
  match h : find_first_of text newline 0 with
  | some check_newline =>
    let p1 := calc_size cw lh width (substr text 0 check_newline)
    let p2 := calc_size cw lh width (substr text (check_newline + 1) text.length)
    { x := if p1.x > p2.x then p1.x else p2.x
      y := p1.y + p2.y }
  | none => calc_size_line cw lh width text
termination_by text.length
decreasing_by
  all_goals
    simp only [find_first_of, List.drop_zero] at h
    split at h
    · rename_i hm
      injection h with h
      subst h
      have hlt := List.indexOf_lt_length.2 hm
      simp only [substr, List.length_take, List.length_drop]
      omega
    · cases h

/-! ## The single-line `render` -/

/-- A call on `render_device`. The font handle `active_font->ttfont` passed along is the
same in every call and is left out. The text image that `renderTextToImage` returns is
identified by the text, colour and blend flag it was made from, so `renderToImage` (the
composite of that image onto `target` at `dest_rect`) carries them. -/
inductive DeviceCall where
  | renderText (text : Str) (color : Color) (dest : Point)
  | renderTextToImage (text : Str) (color : Color) (blend : Bool)
  | renderToImage (text : Str) (color : Color) (blend : Bool) (target : Nat) (dest : Point)
deriving DecidableEq, Repr

/-- The `dest_rect.x`, `dest_rect.y` that the single-line `render` computes from `justify`
(lines 206-223); `/` on `int` truncates toward zero. The `logError` call of the last branch
has no effect on the result. -/
def dest_rect (cw : Str → Int) (text : Str) (x y justify : Int) : Point :=
  if justify = JUSTIFY_LEFT then ⟨x, y⟩
  else if justify = JUSTIFY_RIGHT then ⟨x - cw text, y⟩
  else if justify = JUSTIFY_CENTER then ⟨x - (cw text).tdiv 2, y⟩
  else ⟨x, y⟩

/-- `FontEngine::render(text, x, y, justify, target, color)`, as the calls it makes on
`render_device`. `blend` is `active_font->blend`; `target = none` is the null `Image*`;
`rasterOk text color blend` tells whether `renderTextToImage` returns a non-null image. -/
def render (cw : Str → Int) (blend : Bool) (rasterOk : Str → Color → Bool → Bool)
    (text : Str) (x y justify : Int) (target : Option Nat) (color : Color) :
    List DeviceCall :=
  let dest := dest_rect cw text x y justify
  match target with
  | none => [DeviceCall.renderText text color dest]
  | some t =>
    if rasterOk text color blend then
      [DeviceCall.renderTextToImage text color blend,
       DeviceCall.renderToImage text color blend t dest]
    else
      [DeviceCall.renderTextToImage text color blend]

/-! ## The word-wrapping `render` -/

/-- The arguments of one call of the single-line `render`. -/
structure LineCall where
  text : Str
  x : Int
  y : Int
  justify : Int
  target : Option Nat
  color : Color
deriving DecidableEq, Repr

/-- The state the word-wrapping `render` carries through its loop, other than `cursor` and
`next_word`: its two builders, the member `cursor_y`, and the calls of the single-line
`render` made so far. -/
structure WrapState where
  builder : Str
  builder_prev : Str
  cursor_y : Int
  calls : List LineCall
deriving DecidableEq, Repr

/-- One pass through the body of the `while` loop of the word-wrapping `render`
(lines 266-279) for the token `next_word`. -/
def render_step (cw : Str → Int) (lh : Int) (x justify : Int) (target : Option Nat)
    (width : Int) (color : Color) (next_word : Str) (st : WrapState) : WrapState :=
  let builder := st.builder ++ next_word
  if cw builder > width then
    { builder := next_word ++ [space]
      builder_prev := []
      cursor_y := st.cursor_y + lh
      calls := st.calls ++ [⟨st.builder_prev, x, st.cursor_y, justify, target, color⟩] }
  else
    { builder := builder ++ [space]
      builder_prev := builder ++ [space]
      cursor_y := st.cursor_y
      calls := st.calls }

/-- The `while (cursor != std::string::npos)` loop of the word-wrapping `render`
(lines 264-282). -/
def render_loop (cw : Str → Int) (lh : Int) (x justify : Int) (target : Option Nat)
    (width : Int) (color : Color) (fulltext : Str)
    (cursor : Option Nat) (next_word : Str) (st : WrapState) : WrapState :=
  match cursor with
  | none => st
  | some c =>
    render_loop cw lh x justify target width color fulltext (getNextToken fulltext c space).2
      (getNextToken fulltext c space).1
      (render_step cw lh x justify target width color next_word st)
termination_by cursorMeasure fulltext cursor
decreasing_by exact getNextToken_measure fulltext _ space

/-- `FontEngine::render(text, x, y, justify, target, width, color)`, the word-wrapping
overload. `cursor_y` is the value the member holds when the call starts. The result holds
the calls made of the single-line `render`, in order, and the final `cursor_y`. -/
def renderWrap (cw : Str → Int) (lh : Int) (cursor_y : Int) (text : Str) (x y justify : Int)
    (target : Option Nat) (width : Int) (color : Color) : WrapState :=
  let fulltext := text ++ [space]
  let st0 : WrapState := { builder := [], builder_prev := [], cursor_y := cursor_y, calls := [] }
  let st1 : WrapState := { st0 with cursor_y := y }
  let st := render_loop cw lh x justify target width color fulltext
    (getNextToken fulltext 0 space).2 (getNextToken fulltext 0 space).1 st1
  { st with
    cursor_y := st.cursor_y + lh
    calls := st.calls ++ [⟨st.builder, x, st.cursor_y, justify, target, color⟩] }

/-- The strings the word-wrapping `render` passes to the single-line `render`, in order:
the lines it emits. They depend on the measurement function, the width and the text only
(`renderWrap_lines`). -/
def wrapLines (cw : Str → Int) (width : Int) (text : Str) : List Str :=
  (renderWrap cw 0 0 text 0 0 JUSTIFY_LEFT none width FONT_WHITE).calls.map LineCall.text

/-- The calls on `render_device` made by a list of calls of the single-line `render`. -/
def deviceCalls (cw : Str → Int) (blend : Bool) (rasterOk : Str → Color → Bool → Bool)
    (calls : List LineCall) : List DeviceCall :=
  calls.flatMap fun c => render cw blend rasterOk c.text c.x c.y c.justify c.target c.color

/-! ## `renderShadowed` -/

/-- `FontEngine::renderShadowed(text, x, y, justify, target, color)`: the calls on
`render_device` of the two single-line passes. -/
def renderShadowed (cw : Str → Int) (blend : Bool) (rasterOk : Str → Color → Bool → Bool)
    (text : Str) (x y justify : Int) (target : Option Nat) (color : Color) :
    List DeviceCall :=
  render cw blend rasterOk text (x + 1) (y + 1) justify target FONT_BLACK ++
    render cw blend rasterOk text x y justify target color

/-- `FontEngine::renderShadowed(text, x, y, justify, target, width, color)`, the
word-wrapping overload: the calls of the single-line `render` made by the two passes, and
the `cursor_y` left by the second. -/
def renderShadowedWrap (cw : Str → Int) (lh : Int) (cursor_y : Int) (text : Str)
    (x y justify : Int) (target : Option Nat) (width : Int) (color : Color) : WrapState :=
  let s1 := renderWrap cw lh cursor_y text (x + 1) (y + 1) justify target width FONT_BLACK
  let s2 := renderWrap cw lh s1.cursor_y text x y justify target width color
  { s2 with calls := s1.calls ++ s2.calls }

/-- The shadow of a device call: the same call in `FONT_BLACK`, its destination moved by
`(1, 1)`. -/
def DeviceCall.shadow : DeviceCall → DeviceCall
  | DeviceCall.renderText t _ d => DeviceCall.renderText t FONT_BLACK ⟨d.x + 1, d.y + 1⟩
  | DeviceCall.renderTextToImage t _ b => DeviceCall.renderTextToImage t FONT_BLACK b
  | DeviceCall.renderToImage t _ b tg d =>
    DeviceCall.renderToImage t FONT_BLACK b tg ⟨d.x + 1, d.y + 1⟩

/-- The shadow of a call of the single-line `render`: the same line in `FONT_BLACK`, its
anchor moved by `(1, 1)`. -/
def LineCall.shadow (c : LineCall) : LineCall :=
  { c with x := c.x + 1, y := c.y + 1, color := FONT_BLACK }

/-! ## The tokens the loops read -/

/-- The separator-terminated pieces of `s`, left to right, `cur` being the piece under
way; what follows the last separator is not a piece. -/
def tokenize (sep : Char) : Str → Str → List Str
  | [], _ => []
  | ch :: rest, cur =>
    if ch = sep then cur :: tokenize sep rest [] else tokenize sep rest (cur ++ [ch])

/-- The tokens a loop at `cursor` holding `next_word` still has to process. -/
def pending (fulltext : Str) (cursor : Option Nat) (next_word : Str) : List Str :=
  match cursor with
  | none => []
  | some c => next_word :: tokenize space (fulltext.drop c) []

/-- The tokens of `text`: the pieces between its spaces (`text` has one more token than
it has spaces). -/
def tokens (text : Str) : List Str :=
  tokenize space (text ++ [space]) []

/-- The non-empty tokens of `text`: its words. -/
def words (text : Str) : List Str :=
  (tokens text).filter fun t => !t.isEmpty

/-- The candidates the loops probe on a line that never wraps: the prefixes of the line
that end just before a space of the line, or at its end. -/
def candidates (line : Str) : List Str :=
  line.inits.filter fun p => p == line || (p ++ [space]).isPrefixOf line

/-! ## Measurement functions for the concrete cases -/

/-- A fixed-pitch font: every character, the space included, is 10 wide. -/
def cwFixed (s : Str) : Int :=
  10 * s.length

/-- A font in which a letter is 8 wide and a space is 15 wide, so that `Hello` measures 40
and `Hello World` measures 95. -/
def cwWide (s : Str) : Int :=
  8 * (s.filter fun c => c != space).length + 15 * s.count space

/-! ## The engine state: styles, colours, the active font -/

/-- A `FontStyle`. `ttfont = none` is the null font handle. -/
structure FontStyle where
  name : Str
  path : Str
  ptsize : Int
  blend : Bool
  ttfont : Option Nat
  line_height : Int
  font_height : Int
deriving DecidableEq, Repr

/-- `FontStyle::FontStyle()` (line 31). -/
def FontStyle.init : FontStyle :=
  ⟨[], [], 0, true, none, 0, 0⟩

/-- The data members of `FontEngine`. `color_map` is the `std::map` as the list of its
entries in iteration order; `active_font` is the index in `font_styles` of the style pointed
to, `none` for the null pointer. -/
structure Engine where
  font_styles : List FontStyle
  color_map : List (Str × Color)
  active_font : Option Nat
  cursor_y : Int
deriving DecidableEq, Repr

/-- The style `active_font` points to, if it points to one. -/
def Engine.activeStyle (e : Engine) : Option FontStyle :=
  e.active_font.bind fun i => e.font_styles[i]?

/-- The loop of `getColor` (lines 100-102) over the entries not yet visited:
`_color.compare(it->first) == 0` is equality of the strings. -/
def getColor_scan (_color : Str) : List (Str × Color) → Option Color
  | [] => none
  | (k, v) :: rest => if _color = k then some v else getColor_scan _color rest

/-- `FontEngine::getColor(_color)`: the colour returned and the engine afterwards. -/
def getColor (e : Engine) (_color : Str) : Color × Engine :=
  match getColor_scan _color e.color_map with
  | some c => (c, e)
  | none => (FONT_WHITE, e)

/-- The loop of `setFont` (lines 108-113) over the styles from index `i` on: the index of
the first style named `_font`. -/
def setFont_scan (_font : Str) : List FontStyle → Nat → Option Nat
  | [], _ => none
  | s :: rest, i => if s.name = _font then some i else setFont_scan _font rest (i + 1)

/-- `FontEngine::setFont(_font)`. -/
def setFont (e : Engine) (_font : Str) : Engine :=
  match setFont_scan _font e.font_styles 0 with
  | some i => { e with active_font := some i }
  | none => e

/-- One `infile.next()` of the parser over `engine/font_settings.txt`: whether a section
header came before the line, the section name, the key, and the three values that
`popFirstString`, `popFirstInt` and `toBool(popFirstString)` take from `infile.val`
(`FileParser` and `UtilsParsing` are outside `src/`). -/
structure Entry where
  new_section : Bool
  sect : Str
  key : Str
  path : Str
  ptsize : Int
  blend : Bool
deriving DecidableEq, Repr

/-- The first statement of the loading loop (lines 48-52): a new section appends a fresh
style named after it. -/
def open_section (font_styles : List FontStyle) (en : Entry) : List FontStyle :=
  if en.new_section then font_styles ++ [{ FontStyle.init with name := en.sect }]
  else font_styles

/-- The body of the loading loop of the constructor (lines 48-71) for one entry.
`LANGUAGE` is the configured language code; `openFont path ptsize` is
`TTF_OpenFont(mods->locate("fonts/" + path), ptsize)`, `none` when the font fails to open;
`lineSkip` is `TTF_FontLineSkip`. -/
def load_entry (LANGUAGE : Str) (openFont : Str → Int → Option Nat) (lineSkip : Nat → Int)
    (font_styles : List FontStyle) (en : Entry) : List FontStyle :=
  let styles := open_section font_styles en
  match styles.getLast? with
  | none => styles
  | some style =>
    if (en.key = "default".toList ∧ style.path = []) ∨ en.key = LANGUAGE then
      let style1 : FontStyle :=
        { style with
          path := en.path
          ptsize := en.ptsize
          blend := en.blend
          ttfont := openFont en.path en.ptsize }
      let style2 : FontStyle :=
        match openFont en.path en.ptsize with
        | none => style1
        | some h => { style1 with line_height := lineSkip h, font_height := lineSkip h }
      styles.dropLast ++ [style2]
    else styles

/-- The loading loop of the constructor (lines 47-72) over the entries of the file. -/
def load_styles (LANGUAGE : Str) (openFont : Str → Int → Option Nat) (lineSkip : Nat → Int)
    (entries : List Entry) : List FontStyle :=
  entries.foldl (load_entry LANGUAGE openFont lineSkip) []

/-- `FontEngine::calc_size` as a member function. `sizeUTF8 handle text` is the width
`TTF_SizeUTF8` reports, `getLineHeight()` is the line height of the active style; with a
null `active_font` the call is undefined (`none`). The result is the point returned and the
engine afterwards. -/
def Engine.calc_size (sizeUTF8 : Option Nat → Str → Int) (e : Engine) (text : Str)
    (width : Int) : Option (Point × Engine) :=
  match e.activeStyle with
  | none => none
  | some s => some (FontEngine.calc_size (sizeUTF8 s.ttfont) s.line_height width text, e)

/-- Three loaded styles, two of them named `font_regular`, for the concrete cases. -/
def sampleStyles : List FontStyle :=
  [⟨"font_bold".toList, "b.ttf".toList, 12, true, some 1, 14, 14⟩,
   ⟨"font_regular".toList, "r.ttf".toList, 10, true, some 2, 12, 12⟩,
   ⟨"font_regular".toList, "x.ttf".toList, 9, false, some 3, 11, 11⟩]

/-! ## The loops as folds over the tokens -/

theorem tokenize_of_not_mem (sep : Char) (s cur : Str) (h : sep ∉ s) :
    tokenize sep s cur = [] := by
  induction s generalizing cur with
  | nil => rfl
  | cons ch rest ih =>
    have h1 : ch ≠ sep := fun e => h (by simp [e])
    have h2 : sep ∉ rest := fun e => h (List.mem_cons_of_mem _ e)
    simp [tokenize, h1, ih _ h2]

theorem tokenize_append_sep (sep : Char) (pre post cur : Str) (h : sep ∉ pre) :
    tokenize sep (pre ++ sep :: post) cur = (cur ++ pre) :: tokenize sep post [] := by
  induction pre generalizing cur with
  | nil => simp [tokenize]
  | cons ch rest ih =>
    have h1 : ch ≠ sep := fun e => h (by simp [e])
    have h2 : sep ∉ rest := fun e => h (List.mem_cons_of_mem _ e)
    simp [tokenize, h1, ih _ h2]

/-- A list containing `a` splits at the first `a`. -/
theorem split_at_indexOf (a : Char) (s : Str) (h : a ∈ s) :
    s = s.take (s.indexOf a) ++ a :: s.drop (s.indexOf a + 1) ∧ a ∉ s.take (s.indexOf a) := by
  induction s with
  | nil => cases h
  | cons ch rest ih =>
    by_cases e : ch = a
    · subst e
      simp
    · have hr : a ∈ rest := by
        rcases List.mem_cons.1 h with h | h
        · exact absurd h.symm e
        · exact h
      have := ih hr
      have e2 : ¬ a = ch := fun h => e h.symm
      rw [List.indexOf_cons_ne _ e]
      simp only [List.take_succ_cons, List.drop_succ_cons, List.cons_append, List.mem_cons,
        not_or]
      exact ⟨by rw [← this.1], e2, this.2⟩

/-- What `getNextToken` returns is the next pending token and the cursor from which the
remaining ones are read. -/
theorem pending_getNextToken (fulltext : Str) (c : Nat) :
    pending fulltext (getNextToken fulltext c space).2 (getNextToken fulltext c space).1 =
      tokenize space (fulltext.drop c) [] := by
  simp only [getNextToken, find_first_of]
  by_cases hm : space ∈ fulltext.drop c
  · obtain ⟨hs, hn⟩ := split_at_indexOf space _ hm
    simp only [hm, if_true, pending, substr, Nat.add_sub_cancel_left]
    conv_rhs => rw [hs]
    rw [tokenize_append_sep _ _ _ _ hn]
    simp [List.drop_drop, Nat.add_assoc]
  · simp [hm, pending, tokenize_of_not_mem _ _ _ hm]

theorem calc_size_loop_eq_foldl (cw : Str → Int) (lh width : Int) (fulltext : Str)
    (cursor : Option Nat) (w : Str) (st : SizeState) :
    calc_size_loop cw lh width fulltext cursor w st =
      (pending fulltext cursor w).foldl (fun s t => calc_size_step cw lh width t s) st := by
  suffices H : ∀ (n : Nat) (cursor : Option Nat) (w : Str) (st : SizeState),
      cursorMeasure fulltext cursor = n →
      calc_size_loop cw lh width fulltext cursor w st =
        (pending fulltext cursor w).foldl (fun s t => calc_size_step cw lh width t s) st
    from H _ cursor w st rfl
  intro n
  induction n using Nat.strong_induction_on with
  | _ n ih =>
    intro cursor w st h
    cases cursor with
    | none => rw [calc_size_loop]; rfl
    | some c =>
      rw [calc_size_loop, ih _ (by rw [← h]; exact getNextToken_measure fulltext c space) _ _ _ rfl,
        pending_getNextToken]
      rfl

theorem render_loop_eq_foldl (cw : Str → Int) (lh x justify : Int) (target : Option Nat)
    (width : Int) (color : Color) (fulltext : Str)
    (cursor : Option Nat) (w : Str) (st : WrapState) :
    render_loop cw lh x justify target width color fulltext cursor w st =
      (pending fulltext cursor w).foldl
        (fun s t => render_step cw lh x justify target width color t s) st := by
  suffices H : ∀ (n : Nat) (cursor : Option Nat) (w : Str) (st : WrapState),
      cursorMeasure fulltext cursor = n →
      render_loop cw lh x justify target width color fulltext cursor w st =
        (pending fulltext cursor w).foldl (fun s t => render_step cw lh x justify target width color t s) st
    from H _ cursor w st rfl
  intro n
  induction n using Nat.strong_induction_on with
  | _ n ih =>
    intro cursor w st h
    cases cursor with
    | none => rw [render_loop]; rfl
    | some c =>
      rw [render_loop, ih _ (by rw [← h]; exact getNextToken_measure fulltext c space) _ _ _ rfl,
        pending_getNextToken]
      rfl

/-- The measuring pass of `calc_size` on text without a newline, as a fold of the loop body
over the tokens of the text. -/
theorem calc_size_line_eq (cw : Str → Int) (lh width : Int) (text : Str) :
    calc_size_line cw lh width text =
      (let st := (tokens text).foldl (fun s t => calc_size_step cw lh width t s) ⟨[], [], 0, 0⟩
       { x := if cw (trim st.builder) > st.max_width then cw (trim st.builder)
              else st.max_width
         y := st.height + lh }) := by
  simp only [calc_size_line, calc_size_loop_eq_foldl, pending_getNextToken, List.drop_zero,
    tokens]

/-- The word-wrapping `render` as a fold of the loop body over the tokens of the text. -/
theorem renderWrap_eq (cw : Str → Int) (lh cursor_y : Int) (text : Str) (x y justify : Int)
    (target : Option Nat) (width : Int) (color : Color) :
    renderWrap cw lh cursor_y text x y justify target width color =
      (let st := (tokens text).foldl
          (fun s t => render_step cw lh x justify target width color t s) ⟨[], [], y, []⟩
       { st with
         cursor_y := st.cursor_y + lh
         calls := st.calls ++ [⟨st.builder, x, st.cursor_y, justify, target, color⟩] }) := by
  simp only [renderWrap, render_loop_eq_foldl, pending_getNextToken, List.drop_zero, tokens]

/-! ## `calc_size` and newlines -/

theorem find_first_of_none (s : Str) (c : Char) (h : c ∉ s) : find_first_of s c 0 = none := by
  simp [find_first_of, h]

theorem find_first_of_append (a b : Str) (c : Char) (h : c ∉ a) :
    find_first_of (a ++ c :: b) c 0 = some a.length := by
  have hm : c ∈ a ++ c :: b := by simp
  simp only [find_first_of, List.drop_zero, hm, if_true, Nat.zero_add]
  rw [List.indexOf_append_of_not_mem h]
  simp

/-- Without a newline `calc_size` is its measuring pass. -/
theorem calc_size_of_not_mem (cw : Str → Int) (lh width : Int) (text : Str)
    (h : newline ∉ text) : calc_size cw lh width text = calc_size_line cw lh width text := by
  rw [calc_size]
  split
  · rename_i k hk
    rw [find_first_of_none _ _ h] at hk
    cases hk
  · rfl

/-- At the first newline `calc_size` measures both sides and combines them. -/
theorem calc_size_first_newline (cw : Str → Int) (lh width : Int) (a b : Str)
    (h : newline ∉ a) :
    calc_size cw lh width (a ++ newline :: b) =
      { x := if (calc_size cw lh width a).x > (calc_size cw lh width b).x
             then (calc_size cw lh width a).x else (calc_size cw lh width b).x
        y := (calc_size cw lh width a).y + (calc_size cw lh width b).y } := by
  rw [calc_size]
  split
  · rename_i k hk
    rw [find_first_of_append _ _ _ h] at hk
    injection hk with hk
    subst hk
    have e1 : substr (a ++ newline :: b) 0 a.length = a := by simp [substr]
    have e2 : substr (a ++ newline :: b) (a.length + 1) (a ++ newline :: b).length = b := by
      have : List.drop (a.length + 1) (a ++ newline :: b) = b := by
        rw [List.drop_append_eq_append_drop]
        simp
      simp only [substr, this]
      apply List.take_of_length_le
      simp
      omega
    simp only [e1, e2]
  · rename_i hk
    rw [find_first_of_append _ _ _ h] at hk
    cases hk

/-! ## Lock-step of measuring and rendering -/

theorem lockstep_foldl (cw : Str → Int) (lh x justify : Int) (target : Option Nat)
    (width : Int) (color : Color) (toks : List Str) (s : SizeState) (r : WrapState)
    (hb : s.builder = r.builder) (hp : s.builder_prev = r.builder_prev)
    (hh : s.height = (r.calls.length : Int) * lh) :
    (toks.foldl (fun s t => calc_size_step cw lh width t s) s).builder =
        (toks.foldl (fun s t => render_step cw lh x justify target width color t s) r).builder ∧
      (toks.foldl (fun s t => calc_size_step cw lh width t s) s).height =
        (((toks.foldl (fun s t => render_step cw lh x justify target width color t s)
          r).calls.length : Nat) : Int) * lh := by
  induction toks generalizing s r with
  | nil => exact ⟨hb, hh⟩
  | cons t ts ih =>
    simp only [List.foldl_cons]
    apply ih
    · simp only [calc_size_step, render_step, hb]
      split <;> rfl
    · simp only [calc_size_step, render_step, hb]
      split <;> rfl
    · simp only [calc_size_step, render_step, hb]
      split
      · simp only [List.length_append, List.length_singleton, Nat.cast_add, Nat.cast_one, hh]
        ring
      · exact hh

/-- C1: for text without a newline, the number of calls the word-wrapping `render` makes of
the single-line `render`, times the line height, is the height `calc_size` reports: both
loops take the same break decisions. (Holds for every width and for empty text too.) -/
theorem renderWrap_count_eq_calc_size (cw : Str → Int) (lh cursor_y : Int) (text : Str)
    (x y justify : Int) (target : Option Nat) (width : Int) (color : Color)
    (h : newline ∉ text) :
    ((renderWrap cw lh cursor_y text x y justify target width color).calls.length : Int) * lh =
      (calc_size cw lh width text).y := by
  rw [calc_size_of_not_mem cw lh width text h, calc_size_line_eq, renderWrap_eq]
  have key := lockstep_foldl cw lh x justify target width color (tokens text)
    ⟨[], [], 0, 0⟩ ⟨[], [], y, []⟩ rfl rfl (by simp)
  simp only [List.length_append, List.length_singleton, Nat.cast_add, Nat.cast_one, key.2]
  ring

theorem renderWrap_count_eq_calc_size_witness :
    newline ∉ "aaa bbb ccc".toList ∧
      ((renderWrap cwFixed 16 0 "aaa bbb ccc".toList 5 7 JUSTIFY_LEFT none 40
          FONT_WHITE).calls.length : Int) * 16 =
        (calc_size cwFixed 16 40 "aaa bbb ccc".toList).y :=
  ⟨by decide, renderWrap_count_eq_calc_size cwFixed 16 0 "aaa bbb ccc".toList 5 7 JUSTIFY_LEFT
    none 40 FONT_WHITE (by decide)⟩

/-- C2: on `aaa bbb ccc`, with 10 per character and width 40 (one word fits per line), the
word-wrapping `render` emits `aaa `, then an empty line, then `ccc `: the word `bbb` is in
no emitted line, although it is a word of the text. -/
theorem wrapLines_drops_middle_word :
    wrapLines cwFixed 40 "aaa bbb ccc".toList = ["aaa ".toList, [], "ccc ".toList] ∧
      (wrapLines cwFixed 40 "aaa bbb ccc".toList).flatMap words =
        ["aaa".toList, "ccc".toList] ∧
      words "aaa bbb ccc".toList = ["aaa".toList, "bbb".toList, "ccc".toList] := by
  simp only [wrapLines, renderWrap_eq]
  decide

/-- C3: on `aaaa b`, with 10 per character and width 20, the token `aaaa` measures 40 and
is over the width, yet the word-wrapping `render` emits two empty lines and `b `, no line
holding `aaaa`, and `calc_size` reports the width 10, less than 40, over three lines. -/
theorem oversized_token_dropped :
    "aaaa".toList ∈ tokens "aaaa b".toList ∧ cwFixed "aaaa".toList > 20 ∧
      wrapLines cwFixed 20 "aaaa b".toList = [[], [], "b ".toList] ∧
      calc_size cwFixed 16 20 "aaaa b".toList = ⟨10, 48⟩ := by
  rw [calc_size_of_not_mem _ _ _ _ (by decide), calc_size_line_eq]
  simp only [wrapLines, renderWrap_eq]
  decide

/-! ## Lines that never wrap -/

theorem prefix_of_append_eq_concat (a b l : Str) (x : Char) (h : a ++ b = l ++ [x])
    (hb : b ≠ []) : a <+: l := by
  rcases List.eq_nil_or_concat b with hb2 | ⟨b2, y, hb2⟩
  · exact absurd hb2 hb
  · subst hb2
    rw [List.concat_eq_append, ← List.append_assoc] at h
    have := List.append_inj_left' h rfl
    exact ⟨b2, this⟩

theorem mem_candidates (line p : Str) (rest : Str)
    (h : p ++ space :: rest = line ++ [space]) : p ∈ candidates line := by
  have h2 : (p ++ [space]) ++ rest = line ++ [space] := by simpa using h
  simp only [candidates, List.mem_filter, List.mem_inits, Bool.or_eq_true, beq_iff_eq,
    List.isPrefixOf_iff_prefix]
  by_cases hr : rest = []
  · subst hr
    have : p = line := by simpa using h
    subst this
    exact ⟨List.prefix_refl _, Or.inl rfl⟩
  · have hp := prefix_of_append_eq_concat _ _ _ _ h2 hr
    exact ⟨(List.prefix_append p [space]).trans hp, Or.inr hp⟩

theorem nobreak_tokenize (cw : Str → Int) (lh width : Int) (line : Str)
    (H : ∀ p ∈ candidates line, cw p ≤ width) (rest cur pre : Str) (st : SizeState)
    (hsplit : pre ++ cur ++ rest = line ++ [space]) (hb : st.builder = pre) :
    ((tokenize space rest cur).foldl (fun s t => calc_size_step cw lh width t s) st).height =
      st.height := by
  induction rest generalizing cur pre st with
  | nil => rfl
  | cons ch rest ih =>
    by_cases hc : ch = space
    · subst hc
      have hfit : ¬ cw (st.builder ++ cur) > width := by
        rw [hb]
        exact not_lt.2 (H _ (mem_candidates line (pre ++ cur) rest hsplit))
      have hstep : calc_size_step cw lh width cur st =
          ⟨st.builder ++ cur ++ [space], st.builder ++ cur ++ [space], st.height,
            st.max_width⟩ := by
        unfold calc_size_step
        exact if_neg hfit
      simp only [tokenize, if_true, List.foldl_cons, hstep]
      rw [ih [] (pre ++ cur ++ [space]) _ (by simpa using hsplit) (by rw [hb])]
    · simp only [tokenize, hc, if_false]
      exact ih (cur ++ [ch]) pre st (by simpa using hsplit) hb

/-- A line without a newline none of whose candidates is over the width is one line high. -/
theorem calc_size_nobreak_line (cw : Str → Int) (lh width : Int) (line : Str)
    (hn : newline ∉ line) (H : ∀ p ∈ candidates line, cw p ≤ width) :
    (calc_size cw lh width line).y = lh := by
  rw [calc_size_of_not_mem cw lh width line hn, calc_size_line_eq]
  simp only [tokens]
  rw [nobreak_tokenize cw lh width line H (line ++ [space]) [] [] _ (by simp) rfl]
  simp

theorem calc_size_nobreak_aux (cw : Str → Int) (lh width : Int) (n : Nat) :
    ∀ text : Str, text.length ≤ n →
      (∀ seg ∈ text.splitOn newline, ∀ p ∈ candidates seg, cw p ≤ width) →
      (calc_size cw lh width text).y = ((text.count newline : Nat) + 1 : Int) * lh := by
  induction n with
  | zero =>
    intro text hlen H
    have : text = [] := List.length_eq_zero.1 (Nat.le_zero.1 hlen)
    subst this
    rw [calc_size_nobreak_line cw lh width [] (by simp) (H [] (by decide))]
    simp
  | succ n ih =>
    intro text hlen H
    by_cases hm : newline ∈ text
    · obtain ⟨hs, hnot⟩ := split_at_indexOf newline text hm
      generalize text.take (text.indexOf newline) = a at hs hnot
      generalize text.drop (text.indexOf newline + 1) = b at hs
      subst hs
      have hsplit : (a ++ newline :: b).splitOn newline = a :: b.splitOn newline := by
        unfold List.splitOn
        exact List.splitOnP_first _ a (fun x hx => by
          simp only [beq_iff_eq]
          rintro rfl
          exact hnot hx) newline (by simp) b
      rw [hsplit] at H
      have hb : b.length ≤ n := by
        simp only [List.length_append, List.length_cons] at hlen
        omega
      rw [calc_size_first_newline cw lh width a b hnot]
      simp only
      rw [calc_size_nobreak_line cw lh width a hnot (H a (by simp)),
        ih b hb (fun seg hseg => H seg (List.mem_cons_of_mem _ hseg))]
      simp only [List.count_append, List.count_cons_self,
        List.count_eq_zero_of_not_mem hnot, Nat.zero_add, Nat.cast_add, Nat.cast_one]
      ring
    · have hsplit : text.splitOn newline = [text] := by
        unfold List.splitOn
        exact List.splitOnP_eq_single _ text (fun x hx => by
          simp only [beq_iff_eq]
          rintro rfl
          exact hm hx)
      rw [calc_size_nobreak_line cw lh width text hm (H text (by simp [hsplit])),
        List.count_eq_zero_of_not_mem hm]
      simp

/-- C4: when `text` has exactly `k` newline characters and, in each of its newline-delimited
segments, every candidate the loop probes (each prefix of the segment that ends before a
space or at the segment's end, the empty prefix of an empty segment included) measures at
most `width`, the height `calc_size` reports is `(k + 1)` line heights. -/
theorem calc_size_height_of_no_wrap (cw : Str → Int) (lh width : Int) (text : Str) (k : Nat)
    (hk : text.count newline = k)
    (H : ∀ seg ∈ text.splitOn newline, ∀ p ∈ candidates seg, cw p ≤ width) :
    (calc_size cw lh width text).y = ((k : Int) + 1) * lh := by
  subst hk
  exact calc_size_nobreak_aux cw lh width text.length text (Nat.le_refl _) H

theorem calc_size_height_of_no_wrap_witness :
    ("ab c\n\nd".toList).count newline = 2 ∧
      (∀ seg ∈ ("ab c\n\nd".toList).splitOn newline, ∀ p ∈ candidates seg,
        cwFixed p ≤ 40) ∧
      (calc_size cwFixed 16 40 "ab c\n\nd".toList).y = ((2 : Nat) + 1 : Int) * 16 :=
  ⟨by decide, by decide,
    calc_size_height_of_no_wrap cwFixed 16 40 "ab c\n\nd".toList 2 (by decide) (by decide)⟩

/-! ## Composition over newlines -/

theorem ite_gt_eq_max (p q : Int) : (if p > q then p else q) = max p q := by
  split
  · exact (max_eq_left (le_of_lt ‹q < p›)).symm
  · exact (max_eq_right (not_lt.1 ‹¬ q < p›)).symm

theorem calc_size_append_aux (cw : Str → Int) (lh width : Int) (n : Nat) :
    ∀ a b : Str, a.length ≤ n →
      (calc_size cw lh width (a ++ newline :: b)).x =
          max (calc_size cw lh width a).x (calc_size cw lh width b).x ∧
        (calc_size cw lh width (a ++ newline :: b)).y =
          (calc_size cw lh width a).y + (calc_size cw lh width b).y := by
  induction n with
  | zero =>
    intro a b hlen
    have : a = [] := List.length_eq_zero.1 (Nat.le_zero.1 hlen)
    subst this
    rw [calc_size_first_newline cw lh width [] b (by simp)]
    exact ⟨ite_gt_eq_max _ _, rfl⟩
  | succ n ih =>
    intro a b hlen
    by_cases hm : newline ∈ a
    · obtain ⟨hs, hnot⟩ := split_at_indexOf newline a hm
      generalize a.take (a.indexOf newline) = a1 at hs hnot
      generalize a.drop (a.indexOf newline + 1) = a2 at hs
      subst hs
      have h2 : a2.length ≤ n := by
        simp only [List.length_append, List.length_cons] at hlen
        omega
      have e : a1 ++ newline :: a2 ++ newline :: b = a1 ++ newline :: (a2 ++ newline :: b) := by
        simp
      rw [e, calc_size_first_newline cw lh width a1 (a2 ++ newline :: b) hnot,
        calc_size_first_newline cw lh width a1 a2 hnot]
      simp only [ite_gt_eq_max, (ih a2 b h2).1, (ih a2 b h2).2]
      exact ⟨by rw [max_assoc], by ring⟩
    · rw [calc_size_first_newline cw lh width a b hm]
      exact ⟨ite_gt_eq_max _ _, rfl⟩

/-- C5: `calc_size` composes over newlines. For all strings `a` and `b`, with or without
further newlines, `calc_size (a + "\n" + b)` has the larger of the two widths and the sum
of the two heights. -/
theorem calc_size_append_newline (cw : Str → Int) (lh width : Int) (a b : Str) :
    (calc_size cw lh width (a ++ [newline] ++ b)).x =
        max (calc_size cw lh width a).x (calc_size cw lh width b).x ∧
      (calc_size cw lh width (a ++ [newline] ++ b)).y =
        (calc_size cw lh width a).y + (calc_size cw lh width b).y := by
  have e : a ++ [newline] ++ b = a ++ newline :: b := by simp
  rw [e]
  exact calc_size_append_aux cw lh width a.length a b (Nat.le_refl _)

/-! ## The shape of the emitted lines -/

theorem tokenize_no_sep (sep : Char) (s cur : Str) (hcur : sep ∉ cur) :
    ∀ t ∈ tokenize sep s cur, sep ∉ t := by
  induction s generalizing cur with
  | nil => intro t ht; cases ht
  | cons ch rest ih =>
    intro t ht
    by_cases hc : ch = sep
    · simp only [tokenize, hc, if_true, List.mem_cons] at ht
      rcases ht with rfl | ht
      · exact hcur
      · exact ih [] (by simp) t ht
    · simp only [tokenize, hc, if_false] at ht
      refine ih (cur ++ [ch]) ?_ t ht
      simp only [List.mem_append, List.mem_singleton, not_or]
      exact ⟨hcur, fun e => hc e.symm⟩

theorem tokens_ne_nil (text : Str) : tokens text ≠ [] := by
  have hm : space ∈ text ++ [space] := by simp
  obtain ⟨hs, hn⟩ := split_at_indexOf space _ hm
  unfold tokens
  rw [hs, tokenize_append_sep _ _ _ _ hn]
  simp

theorem render_step_break (cw : Str → Int) (lh x justify : Int) (target : Option Nat)
    (width : Int) (color : Color) (t : Str) (st : WrapState)
    (h : cw (st.builder ++ t) > width) :
    render_step cw lh x justify target width color t st =
      ⟨t ++ [space], [], st.cursor_y + lh,
        st.calls ++ [⟨st.builder_prev, x, st.cursor_y, justify, target, color⟩]⟩ := by
  unfold render_step
  exact if_pos h

theorem render_step_fit (cw : Str → Int) (lh x justify : Int) (target : Option Nat)
    (width : Int) (color : Color) (t : Str) (st : WrapState)
    (h : ¬ cw (st.builder ++ t) > width) :
    render_step cw lh x justify target width color t st =
      ⟨st.builder ++ t ++ [space], st.builder ++ t ++ [space], st.cursor_y, st.calls⟩ := by
  unfold render_step
  exact if_neg h

theorem lines_foldl (cw : Str → Int) (lh lh2 x x2 justify justify2 : Int)
    (target target2 : Option Nat) (width : Int) (color color2 : Color) (toks : List Str)
    (s r : WrapState) (hb : s.builder = r.builder) (hp : s.builder_prev = r.builder_prev)
    (hc : s.calls.map LineCall.text = r.calls.map LineCall.text) :
    (toks.foldl (fun s t => render_step cw lh x justify target width color t s) s).builder =
        (toks.foldl (fun s t => render_step cw lh2 x2 justify2 target2 width color2 t s)
          r).builder ∧
      (toks.foldl (fun s t => render_step cw lh x justify target width color t s)
        s).calls.map LineCall.text =
        (toks.foldl (fun s t => render_step cw lh2 x2 justify2 target2 width color2 t s)
          r).calls.map LineCall.text := by
  induction toks generalizing s r with
  | nil => exact ⟨hb, hc⟩
  | cons t ts ih =>
    simp only [List.foldl_cons]
    by_cases hfit : cw (r.builder ++ t) > width
    · rw [render_step_break cw lh2 x2 justify2 target2 width color2 t r hfit,
        render_step_break cw lh x justify target width color t s (hb ▸ hfit)]
      exact ih _ _ rfl rfl (by simp [hc, hp])
    · rw [render_step_fit cw lh2 x2 justify2 target2 width color2 t r hfit,
        render_step_fit cw lh x justify target width color t s (hb ▸ hfit)]
      exact ih _ _ (by simp only [hb]) (by simp only [hb]) hc

/-- Whatever the line height, anchor, justification, target and colour, the strings the
word-wrapping `render` passes to the single-line `render` are `wrapLines cw width text`. -/
theorem renderWrap_lines (cw : Str → Int) (lh cursor_y : Int) (text : Str) (x y justify : Int)
    (target : Option Nat) (width : Int) (color : Color) :
    (renderWrap cw lh cursor_y text x y justify target width color).calls.map LineCall.text =
      wrapLines cw width text := by
  simp only [wrapLines, renderWrap_eq]
  obtain ⟨h1, h2⟩ := lines_foldl cw lh 0 x 0 justify JUSTIFY_LEFT target none width color
    FONT_WHITE (tokens text) ⟨[], [], y, []⟩ ⟨[], [], 0, []⟩ rfl rfl rfl
  simp only [List.map_append, List.map_cons, List.map_nil, h1, h2]

/-- The invariant of the word-wrapping loop: the builder is empty or a string that fits, or
a lone token, followed by one space; `builder_prev` is empty or a string that fits followed
by one space; and so is every line emitted so far. -/
theorem render_foldl_shape (cw : Str → Int) (lh x justify : Int) (target : Option Nat)
    (width : Int) (color : Color) (toks : List Str) (htok : ∀ t ∈ toks, space ∉ t)
    (st : WrapState)
    (hb : st.builder = [] ∨ ∃ p, st.builder = p ++ [space] ∧ (cw p ≤ width ∨ space ∉ p))
    (hp : st.builder_prev = [] ∨ ∃ p, st.builder_prev = p ++ [space] ∧ cw p ≤ width)
    (hc : ∀ c ∈ st.calls, c.text = [] ∨
      ∃ p, c.text = p ++ [space] ∧ (cw p ≤ width ∨ space ∉ p)) :
    (∃ p, (toks.foldl (fun s t => render_step cw lh x justify target width color t s)
        st).builder = (if toks = [] then st.builder else p ++ [space]) ∧
        (toks ≠ [] → (cw p ≤ width ∨ space ∉ p))) ∧
      ∀ c ∈ (toks.foldl (fun s t => render_step cw lh x justify target width color t s)
        st).calls, c.text = [] ∨ ∃ p, c.text = p ++ [space] ∧ (cw p ≤ width ∨ space ∉ p) := by
  induction toks generalizing st with
  | nil => exact ⟨⟨[], by simp⟩, hc⟩
  | cons t ts ih =>
    have ht : space ∉ t := htok t (by simp)
    have hts : ∀ u ∈ ts, space ∉ u := fun u hu => htok u (List.mem_cons_of_mem _ hu)
    simp only [List.foldl_cons]
    by_cases hfit : cw (st.builder ++ t) > width
    · rw [render_step_break cw lh x justify target width color t st hfit]
      obtain ⟨⟨p, hp1, hp2⟩, hcalls⟩ := ih hts
        ⟨t ++ [space], [], st.cursor_y + lh,
          st.calls ++ [⟨st.builder_prev, x, st.cursor_y, justify, target, color⟩]⟩
        (Or.inr ⟨t, rfl, Or.inr ht⟩) (Or.inl rfl)
        (by
          intro c hcm
          simp only [List.mem_append, List.mem_singleton] at hcm
          rcases hcm with hcm | rfl
          · exact hc c hcm
          · rcases hp with hp | ⟨q, hq, hqw⟩
            · exact Or.inl hp
            · exact Or.inr ⟨q, hq, Or.inl hqw⟩)
      refine ⟨?_, hcalls⟩
      by_cases hnil : ts = []
      · subst hnil
        exact ⟨t, by simp, fun _ => Or.inr ht⟩
      · exact ⟨p, by simpa [hnil] using hp1, fun _ => hp2 hnil⟩
    · rw [render_step_fit cw lh x justify target width color t st hfit]
      have hle : cw (st.builder ++ t) ≤ width := not_lt.1 hfit
      obtain ⟨⟨p, hp1, hp2⟩, hcalls⟩ := ih hts
        ⟨st.builder ++ t ++ [space], st.builder ++ t ++ [space], st.cursor_y, st.calls⟩
        (Or.inr ⟨_, rfl, Or.inl hle⟩) (Or.inr ⟨_, rfl, hle⟩) hc
      refine ⟨?_, hcalls⟩
      by_cases hnil : ts = []
      · subst hnil
        exact ⟨st.builder ++ t, by simp, fun _ => Or.inl hle⟩
      · exact ⟨p, by simpa [hnil] using hp1, fun _ => hp2 hnil⟩

/-- The lines the word-wrapping `render` emits: each is empty, or a string that fits or a
lone token, followed by one space; and the last line is of the second kind. -/
theorem wrapLines_shape (cw : Str → Int) (width : Int) (text : Str) :
    (∀ l ∈ wrapLines cw width text, l = [] ∨
        ∃ p, l = p ++ [space] ∧ (cw p ≤ width ∨ space ∉ p)) ∧
      ∃ p, (wrapLines cw width text).getLast? = some (p ++ [space]) ∧
        (cw p ≤ width ∨ space ∉ p) := by
  have htok : ∀ t ∈ tokens text, space ∉ t := tokenize_no_sep space _ [] (by simp)
  obtain ⟨⟨p, hp1, hp2⟩, hcalls⟩ := render_foldl_shape cw 0 0 JUSTIFY_LEFT none width
    FONT_WHITE (tokens text) htok ⟨[], [], 0, []⟩ (Or.inl rfl) (Or.inl rfl)
    (by intro c hc; cases hc)
  rw [if_neg (tokens_ne_nil text)] at hp1
  simp only [wrapLines, renderWrap_eq, List.map_append, List.map_cons, List.map_nil,
    List.mem_append, List.mem_map, List.mem_singleton, List.getLast?_append, hp1]
  constructor
  · rintro l (⟨c, hc, rfl⟩ | rfl)
    · exact hcalls c hc
    · exact Or.inr ⟨p, rfl, hp2 (tokens_ne_nil text)⟩
  · exact ⟨p, by simp, hp2 (tokens_ne_nil text)⟩

/-- C6, as the claim states it, fails: with `Hello` 40 wide, `Hello World` 95 wide and width
60 the word-wrapping `render` emits `Hello ` and `World `, each with its trailing space,
not `Hello` and `World`. -/
theorem wrapLines_scenario_keeps_space :
    cwWide "Hello".toList = 40 ∧ cwWide "Hello World".toList = 95 ∧
      wrapLines cwWide 60 "Hello World".toList = ["Hello ".toList, "World ".toList] ∧
      wrapLines cwWide 60 "Hello World".toList ≠ ["Hello".toList, "World".toList] ∧
      ∃ l ∈ wrapLines cwWide 60 "Hello World".toList, l.getLast? = some space := by
  simp only [wrapLines, renderWrap_eq]
  decide

/-- C6, amended: the word-wrapping `render` does not trim. Every non-empty line it passes
to the single-line `render` ends with the separator space, and the last line is never
empty; whenever `Hello` fits in the width and `Hello World` does not (as with 40, 95 and
width 60), the lines emitted for `Hello World` are exactly `Hello ` and `World `. -/
theorem wrapLines_end_with_space (cw : Str → Int) (width : Int) (text : Str) :
    (∀ l ∈ wrapLines cw width text, l ≠ [] → l.getLast? = some space) ∧
      (∃ p, (wrapLines cw width text).getLast? = some (p ++ [space])) ∧
      (cw "Hello".toList = 40 → cw "Hello World".toList = 95 →
        wrapLines cw 60 "Hello World".toList = ["Hello ".toList, "World ".toList]) := by
  obtain ⟨h1, p, h2, _⟩ := wrapLines_shape cw width text
  refine ⟨?_, ⟨p, h2⟩, ?_⟩
  · intro l hl hne
    rcases h1 l hl with h | ⟨q, hq, _⟩
    · exact absurd h hne
    · rw [hq]
      simp
  · intro hHello hWorld
    have e1 : tokens "Hello World".toList = ["Hello".toList, "World".toList] := by decide
    have f1 : ¬ cw ((⟨[], [], 0, []⟩ : WrapState).builder ++ "Hello".toList) > 60 := by
      show ¬ cw "Hello".toList > 60
      rw [hHello]
      decide
    have f2 : cw ((⟨[] ++ "Hello".toList ++ [space], [] ++ "Hello".toList ++ [space], 0,
        []⟩ : WrapState).builder ++ "World".toList) > 60 := by
      show cw "Hello World".toList > 60
      rw [hWorld]
      decide
    simp only [wrapLines, renderWrap_eq, e1, List.foldl_cons, List.foldl_nil]
    rw [render_step_fit cw 0 0 JUSTIFY_LEFT none 60 FONT_WHITE _ _ f1,
      render_step_break cw 0 0 JUSTIFY_LEFT none 60 FONT_WHITE _ _ f2]
    rfl

theorem wrapLines_end_with_space_witness :
    cwWide "Hello".toList = 40 ∧ cwWide "Hello World".toList = 95 ∧
      wrapLines cwWide 60 "Hello World".toList = ["Hello ".toList, "World ".toList] :=
  ⟨by decide, by decide,
    (wrapLines_end_with_space cwWide 60 "Hello World".toList).2.2 (by decide) (by decide)⟩

/-- C7: with line height 16, `Hello` 40 wide, `Hello World` 95 wide, `World` 40 wide and
width 60, `calc_size` returns `(55, 32)`: the width of the wrapped line `Hello ` is taken
with its trailing space (55), while only the last line is trimmed. The widest trimmed
emitted line measures 40, which is also `max(40, calc_width("World"))`. -/
theorem calc_size_scenario_counts_space :
    cwWide "Hello".toList = 40 ∧ cwWide "Hello World".toList = 95 ∧
      cwWide "World".toList = 40 ∧ cwWide "Hello ".toList = 55 ∧
      (wrapLines cwWide 60 "Hello World".toList).map (fun l => cwWide (trim l)) = [40, 40] ∧
      calc_size cwWide 16 60 "Hello World".toList = ⟨55, 32⟩ := by
  rw [calc_size_of_not_mem _ _ _ _ (by decide), calc_size_line_eq]
  simp only [wrapLines, renderWrap_eq]
  decide

/-- C8, as the claim states it, fails: with 10 per character and width 70 the first line
emitted for `aaa bbb ccc` is `aaa bbb `, which measures 80 and holds two tokens. -/
theorem wrapLines_line_over_width :
    wrapLines cwFixed 70 "aaa bbb ccc".toList = ["aaa bbb ".toList, "ccc ".toList] ∧
      ¬ cwFixed "aaa bbb ".toList ≤ 70 ∧
      words "aaa bbb ".toList = ["aaa".toList, "bbb".toList] := by
  simp only [wrapLines, renderWrap_eq]
  decide

/-- C8, amended: the width budget is tested on the line without its separator. Every
non-empty line the word-wrapping `render` passes to the single-line `render` is a string
`p` followed by one space, where `calc_width p ≤ width` or `p` is a lone token (has no
space). -/
theorem wrapLines_fit_or_single (cw : Str → Int) (width : Int) (text : Str) :
    ∀ l ∈ wrapLines cw width text, l = [] ∨
      ∃ p, l = p ++ [space] ∧ (cw p ≤ width ∨ space ∉ p) :=
  (wrapLines_shape cw width text).1

theorem wrapLines_fit_or_single_witness :
    "aaa bbb ".toList ∈ wrapLines cwFixed 70 "aaa bbb ccc".toList ∧
      ("aaa bbb ".toList = [] ∨
        ∃ p, "aaa bbb ".toList = p ++ [space] ∧ (cwFixed p ≤ 70 ∨ space ∉ p)) :=
  have hm : "aaa bbb ".toList ∈ wrapLines cwFixed 70 "aaa bbb ccc".toList := by
    simp only [wrapLines, renderWrap_eq]
    decide
  ⟨hm, wrapLines_fit_or_single cwFixed 70 "aaa bbb ccc".toList "aaa bbb ".toList hm⟩

/-! ## Justification -/

/-- C9: the single-line `render` draws at `dest_rect`, which is `(x, y)` for `JUSTIFY_LEFT`,
`(x - calc_width text, y)` for `JUSTIFY_RIGHT` and `(x - calc_width text / 2, y)` with
truncating division for `JUSTIFY_CENTER` (95 for width 10 at `x = 100`; for an odd
non-negative width `w` the origin is `x - (w - 1) / 2`, the candidate nearer to `x`); any
other `justify` gives `(x, y)` and the same device calls as `JUSTIFY_LEFT`; and a device
call is made in every case. -/
theorem render_dest_rect (cw : Str → Int) (blend : Bool)
    (rasterOk : Str → Color → Bool → Bool) (text : Str) (x y justify : Int)
    (target : Option Nat) (color : Color) :
    (render cw blend rasterOk text x y justify target color =
        match target with
        | none => [DeviceCall.renderText text color (dest_rect cw text x y justify)]
        | some t =>
          DeviceCall.renderTextToImage text color blend ::
            (if rasterOk text color blend then
              [DeviceCall.renderToImage text color blend t (dest_rect cw text x y justify)]
             else [])) ∧
      dest_rect cw text x y JUSTIFY_LEFT = ⟨x, y⟩ ∧
      dest_rect cw text x y JUSTIFY_RIGHT = ⟨x - cw text, y⟩ ∧
      dest_rect cw text x y JUSTIFY_CENTER = ⟨x - (cw text).tdiv 2, y⟩ ∧
      (cw text = 10 → dest_rect cw text 100 y JUSTIFY_CENTER = ⟨95, y⟩) ∧
      (0 ≤ cw text → cw text % 2 = 1 →
        2 * (x - (dest_rect cw text x y JUSTIFY_CENTER).x) = cw text - 1) ∧
      (justify ≠ JUSTIFY_LEFT → justify ≠ JUSTIFY_RIGHT → justify ≠ JUSTIFY_CENTER →
        dest_rect cw text x y justify = ⟨x, y⟩ ∧
          render cw blend rasterOk text x y justify target color =
            render cw blend rasterOk text x y JUSTIFY_LEFT target color) ∧
      render cw blend rasterOk text x y justify target color ≠ [] := by
  have hL : dest_rect cw text x y JUSTIFY_LEFT = ⟨x, y⟩ := by simp [dest_rect]
  have hC : dest_rect cw text x y JUSTIFY_CENTER = ⟨x - (cw text).tdiv 2, y⟩ := by
    simp [dest_rect, JUSTIFY_CENTER, JUSTIFY_LEFT, JUSTIFY_RIGHT]
  have hO : ∀ j, j ≠ JUSTIFY_LEFT → j ≠ JUSTIFY_RIGHT → j ≠ JUSTIFY_CENTER →
      dest_rect cw text x y j = ⟨x, y⟩ := by
    intro j h1 h2 h3
    simp [dest_rect, h1, h2, h3]
  refine ⟨?_, hL, ?_, hC, ?_, ?_, ?_, ?_⟩
  · unfold render
    cases target with
    | none => rfl
    | some t =>
      simp only
      split <;> rfl
  · simp [dest_rect, JUSTIFY_LEFT, JUSTIFY_RIGHT]
  · intro h
    simp [dest_rect, JUSTIFY_CENTER, JUSTIFY_LEFT, JUSTIFY_RIGHT, h]
    decide
  · intro h0 h1
    rw [hC]
    simp only
    have := Int.tdiv_add_tmod (cw text) 2
    have hm : (cw text).tmod 2 = 1 := by
      rw [Int.tmod_eq_emod h0 (by decide)]
      exact h1
    omega
  · intro h1 h2 h3
    refine ⟨hO justify h1 h2 h3, ?_⟩
    unfold render
    rw [hO justify h1 h2 h3, hL]
  · unfold render
    cases target with
    | none => simp
    | some t =>
      simp only
      split <;> simp

theorem render_dest_rect_witness :
    cwFixed "X".toList = 10 ∧
      dest_rect cwFixed "X".toList 100 50 JUSTIFY_CENTER = ⟨95, 50⟩ ∧
      (0 ≤ cwWide "a b".toList ∧ cwWide "a b".toList % 2 = 1 ∧
        2 * (100 - (dest_rect cwWide "a b".toList 100 50 JUSTIFY_CENTER).x) =
          cwWide "a b".toList - 1) ∧
      ((7 : Int) ≠ JUSTIFY_LEFT ∧ (7 : Int) ≠ JUSTIFY_RIGHT ∧ (7 : Int) ≠ JUSTIFY_CENTER ∧
        dest_rect cwFixed "X".toList 100 50 7 = ⟨100, 50⟩ ∧
        render cwFixed true (fun _ _ _ => true) "X".toList 100 50 7 none FONT_WHITE =
          render cwFixed true (fun _ _ _ => true) "X".toList 100 50 JUSTIFY_LEFT none
            FONT_WHITE) :=
  ⟨by decide,
    (render_dest_rect cwFixed true (fun _ _ _ => true) "X".toList 100 50 7 none
      FONT_WHITE).2.2.2.2.1 (by decide),
    ⟨by decide, by decide,
      (render_dest_rect cwWide true (fun _ _ _ => true) "a b".toList 100 50 7 none
        FONT_WHITE).2.2.2.2.2.1 (by decide) (by decide)⟩,
    ⟨by decide, by decide, by decide,
      (render_dest_rect cwFixed true (fun _ _ _ => true) "X".toList 100 50 7 none
        FONT_WHITE).2.2.2.2.2.2.1 (by decide) (by decide) (by decide)⟩⟩

/-! ## The shadow pass -/

theorem dest_rect_shift (cw : Str → Int) (text : Str) (x y justify : Int) :
    dest_rect cw text (x + 1) (y + 1) justify =
      ⟨(dest_rect cw text x y justify).x + 1, (dest_rect cw text x y justify).y + 1⟩ := by
  unfold dest_rect
  split
  · rfl
  · split
    · simp only [Point.mk.injEq, and_true]
      ring
    · split
      · simp only [Point.mk.injEq, and_true]
        ring
      · rfl

/-- One single-line `render` at `(x + 1, y + 1)` in black makes the shadows of the device
calls of the same `render` at `(x, y)` in `color`, when the backend rasterises the text in
black exactly when it does in `color`. -/
theorem render_shadow (cw : Str → Int) (blend : Bool) (rasterOk : Str → Color → Bool → Bool)
    (text : Str) (x y justify : Int) (target : Option Nat) (color : Color)
    (hok : ∀ tg, target = some tg → rasterOk text FONT_BLACK blend = rasterOk text color blend) :
    render cw blend rasterOk text (x + 1) (y + 1) justify target FONT_BLACK =
      (render cw blend rasterOk text x y justify target color).map DeviceCall.shadow := by
  unfold render
  cases target with
  | none => simp [DeviceCall.shadow, dest_rect_shift]
  | some t =>
    simp only [hok t rfl, dest_rect_shift]
    split <;> simp [DeviceCall.shadow]

theorem shadow_foldl (cw : Str → Int) (lh x justify : Int) (target : Option Nat)
    (width : Int) (color : Color) (toks : List Str) (s r : WrapState)
    (hb : s.builder = r.builder) (hp : s.builder_prev = r.builder_prev)
    (hy : s.cursor_y = r.cursor_y + 1) (hc : s.calls = r.calls.map LineCall.shadow) :
    (toks.foldl (fun s t => render_step cw lh (x + 1) justify target width FONT_BLACK t s)
        s).builder =
        (toks.foldl (fun s t => render_step cw lh x justify target width color t s)
          r).builder ∧
      (toks.foldl (fun s t => render_step cw lh (x + 1) justify target width FONT_BLACK t s)
        s).cursor_y =
        (toks.foldl (fun s t => render_step cw lh x justify target width color t s)
          r).cursor_y + 1 ∧
      (toks.foldl (fun s t => render_step cw lh (x + 1) justify target width FONT_BLACK t s)
        s).calls =
        (toks.foldl (fun s t => render_step cw lh x justify target width color t s)
          r).calls.map LineCall.shadow := by
  induction toks generalizing s r with
  | nil => exact ⟨hb, hy, hc⟩
  | cons t ts ih =>
    simp only [List.foldl_cons]
    by_cases hfit : cw (r.builder ++ t) > width
    · rw [render_step_break cw lh x justify target width color t r hfit,
        render_step_break cw lh (x + 1) justify target width FONT_BLACK t s (hb ▸ hfit)]
      exact ih _ _ rfl rfl (by simp only [hy]; ring)
        (by simp [hc, hp, hy, LineCall.shadow])
    · rw [render_step_fit cw lh x justify target width color t r hfit,
        render_step_fit cw lh (x + 1) justify target width FONT_BLACK t s (hb ▸ hfit)]
      exact ih _ _ (by simp only [hb]) (by simp only [hb]) hy hc

/-- The shadow pass of the word-wrapping `render` makes the shadows of the calls of the
primary pass. -/
theorem renderWrap_shadow (cw : Str → Int) (lh c1 c2 : Int) (text : Str) (x y justify : Int)
    (target : Option Nat) (width : Int) (color : Color) :
    (renderWrap cw lh c1 text (x + 1) (y + 1) justify target width FONT_BLACK).calls =
      (renderWrap cw lh c2 text x y justify target width color).calls.map LineCall.shadow := by
  rw [renderWrap_eq, renderWrap_eq]
  obtain ⟨h1, h2, h3⟩ := shadow_foldl cw lh x justify target width color (tokens text)
    ⟨[], [], y + 1, []⟩ ⟨[], [], y, []⟩ rfl rfl rfl rfl
  simp [h1, h2, h3, LineCall.shadow]

theorem deviceCalls_shadow (cw : Str → Int) (blend : Bool)
    (rasterOk : Str → Color → Bool → Bool) (target : Option Nat) (color : Color)
    (hok : ∀ tg, target = some tg →
      ∀ t, rasterOk t FONT_BLACK blend = rasterOk t color blend)
    (calls : List LineCall) (hc : ∀ c ∈ calls, c.target = target ∧ c.color = color) :
    deviceCalls cw blend rasterOk (calls.map LineCall.shadow) =
      (deviceCalls cw blend rasterOk calls).map DeviceCall.shadow := by
  induction calls with
  | nil => rfl
  | cons c cs ih =>
    have hcs := ih (fun d hd => hc d (List.mem_cons_of_mem _ hd))
    obtain ⟨ht, hcol⟩ := hc c (by simp)
    simp only [deviceCalls, List.map_cons, List.flatMap_cons, List.map_append] at hcs ⊢
    rw [hcs]
    congr 1
    simp only [LineCall.shadow]
    exact render_shadow cw blend rasterOk c.text c.x c.y c.justify c.target c.color
      (fun tg h => by rw [hcol]; exact hok tg (ht ▸ h) c.text)

theorem renderWrap_calls_target_color (cw : Str → Int) (lh c0 : Int) (text : Str)
    (x y justify : Int) (target : Option Nat) (width : Int) (color : Color) :
    ∀ c ∈ (renderWrap cw lh c0 text x y justify target width color).calls,
      c.target = target ∧ c.color = color := by
  rw [renderWrap_eq]
  suffices H : ∀ (toks : List Str) (st : WrapState),
      (∀ c ∈ st.calls, c.target = target ∧ c.color = color) →
      ∀ c ∈ (toks.foldl (fun s t => render_step cw lh x justify target width color t s)
        st).calls, c.target = target ∧ c.color = color by
    intro c hc
    simp only [List.mem_append, List.mem_singleton] at hc
    rcases hc with hc | rfl
    · exact H (tokens text) ⟨[], [], y, []⟩ (by intro c hc; cases hc) c hc
    · exact ⟨rfl, rfl⟩
  intro toks
  induction toks with
  | nil => intro st h; exact h
  | cons t ts ih =>
    intro st h
    simp only [List.foldl_cons]
    apply ih
    by_cases hfit : cw (st.builder ++ t) > width
    · rw [render_step_break cw lh x justify target width color t st hfit]
      intro c hc
      simp only [List.mem_append, List.mem_singleton] at hc
      rcases hc with hc | rfl
      · exact h c hc
      · exact ⟨rfl, rfl⟩
    · rw [render_step_fit cw lh x justify target width color t st hfit]
      exact h

/-- C10: the shadow law, for both `renderShadowed` overloads. The device calls are those
of the shadow pass followed by those of the primary pass; the shadow pass makes, call for
call, the shadows of the primary pass: the same texts, in `FONT_BLACK`, each destination
moved by `(1, 1)`. For an image target this needs the backend to rasterise a text in black
exactly when it does in `color` (the render is successful in both passes or in neither). -/
theorem renderShadowed_law (cw : Str → Int) (lh : Int) (blend : Bool)
    (rasterOk : Str → Color → Bool → Bool) (cursor_y : Int) (text : Str) (x y justify : Int)
    (target : Option Nat) (width : Int) (color : Color)
    (hok : ∀ tg, target = some tg →
      ∀ t, rasterOk t FONT_BLACK blend = rasterOk t color blend) :
    renderShadowed cw blend rasterOk text x y justify target color =
        (render cw blend rasterOk text x y justify target color).map DeviceCall.shadow ++
          render cw blend rasterOk text x y justify target color ∧
      deviceCalls cw blend rasterOk
          (renderShadowedWrap cw lh cursor_y text x y justify target width color).calls =
        (deviceCalls cw blend rasterOk
            (renderWrap cw lh cursor_y text x y justify target width color).calls).map
            DeviceCall.shadow ++
          deviceCalls cw blend rasterOk
            (renderWrap cw lh cursor_y text x y justify target width color).calls := by
  constructor
  · unfold renderShadowed
    rw [render_shadow cw blend rasterOk text x y justify target color
      (fun tg h => hok tg h text)]
  · have e : (renderShadowedWrap cw lh cursor_y text x y justify target width color).calls =
        (renderWrap cw lh cursor_y text x y justify target width color).calls.map
            LineCall.shadow ++
          (renderWrap cw lh cursor_y text x y justify target width color).calls := by
      simp only [renderShadowedWrap]
      rw [renderWrap_shadow cw lh cursor_y cursor_y text x y justify target width color]
      simp only [renderWrap_eq]
    rw [e]
    have hsplit : ∀ a b : List LineCall, deviceCalls cw blend rasterOk (a ++ b) =
        deviceCalls cw blend rasterOk a ++ deviceCalls cw blend rasterOk b := by
      intro a b
      simp [deviceCalls, List.flatMap_append]
    rw [hsplit, deviceCalls_shadow cw blend rasterOk target color hok _
      (renderWrap_calls_target_color cw lh cursor_y text x y justify target width color)]

theorem renderShadowed_law_witness :
    (∀ tg, some 3 = some tg → ∀ t : Str,
        (fun (_ : Str) (_ : Color) (_ : Bool) => true) t FONT_BLACK true =
          (fun (_ : Str) (_ : Color) (_ : Bool) => true) t FONT_WHITE true) ∧
      renderShadowed cwFixed true (fun _ _ _ => true) "X".toList 100 50 JUSTIFY_CENTER
          (some 3) FONT_WHITE =
        [DeviceCall.renderTextToImage "X".toList FONT_BLACK true,
         DeviceCall.renderToImage "X".toList FONT_BLACK true 3 ⟨96, 51⟩,
         DeviceCall.renderTextToImage "X".toList FONT_WHITE true,
         DeviceCall.renderToImage "X".toList FONT_WHITE true 3 ⟨95, 50⟩] :=
  ⟨fun _ _ _ => rfl,
    (renderShadowed_law cwFixed 16 true (fun _ _ _ => true) 0 "X".toList 100 50
      JUSTIFY_CENTER (some 3) 40 FONT_WHITE (fun _ _ _ => rfl)).1.trans (by decide)⟩

/-! ## The anchors of the emitted lines -/

theorem anchors_foldl (cw : Str → Int) (lh x y justify : Int) (target : Option Nat)
    (width : Int) (color : Color) (toks : List Str) (st : WrapState)
    (hc : st.calls = (st.calls.map LineCall.text).mapIdx
      (fun i l => (⟨l, x, y + (i : Int) * lh, justify, target, color⟩ : LineCall)))
    (hy : st.cursor_y = y + (st.calls.length : Int) * lh) :
    (toks.foldl (fun s t => render_step cw lh x justify target width color t s) st).calls =
        ((toks.foldl (fun s t => render_step cw lh x justify target width color t s)
          st).calls.map LineCall.text).mapIdx
          (fun i l => (⟨l, x, y + (i : Int) * lh, justify, target, color⟩ : LineCall)) ∧
      (toks.foldl (fun s t => render_step cw lh x justify target width color t s)
        st).cursor_y =
        y + ((toks.foldl (fun s t => render_step cw lh x justify target width color t s)
          st).calls.length : Int) * lh := by
  induction toks generalizing st with
  | nil => exact ⟨hc, hy⟩
  | cons t ts ih =>
    simp only [List.foldl_cons]
    by_cases hfit : cw (st.builder ++ t) > width
    · rw [render_step_break cw lh x justify target width color t st hfit]
      apply ih
      · simp only [List.map_append, List.map_cons, List.map_nil, List.mapIdx_append,
          List.mapIdx_cons, List.mapIdx_nil, List.length_map, Nat.zero_add, ← hc, ← hy]
      · simp only [List.length_append, List.length_singleton, Nat.cast_add, Nat.cast_one, hy]
        ring
    · rw [render_step_fit cw lh x justify target width color t st hfit]
      exact ih _ hc hy

/-- C11: the word-wrapping `render` passes its `i`-th line (from 0) to the single-line
`render` with anchor `(x, y + i * getLineHeight())` and the caller's `justify`, `target`
and `color`; afterwards `cursor_y` is `y` plus one line height per emitted line; and
neither depends on the value `cursor_y` held before the call. -/
theorem renderWrap_anchors (cw : Str → Int) (lh cursor_y other_y : Int) (text : Str)
    (x y justify : Int) (target : Option Nat) (width : Int) (color : Color) :
    (renderWrap cw lh cursor_y text x y justify target width color).calls =
        (wrapLines cw width text).mapIdx
          (fun i l => (⟨l, x, y + (i : Int) * lh, justify, target, color⟩ : LineCall)) ∧
      (renderWrap cw lh cursor_y text x y justify target width color).cursor_y =
        y + ((wrapLines cw width text).length : Int) * lh ∧
      renderWrap cw lh cursor_y text x y justify target width color =
        renderWrap cw lh other_y text x y justify target width color := by
  have hlines := renderWrap_lines cw lh cursor_y text x y justify target width color
  have hlen : (wrapLines cw width text).length =
      (renderWrap cw lh cursor_y text x y justify target width color).calls.length := by
    rw [← hlines, List.length_map]
  rw [hlen, ← hlines]
  obtain ⟨h1, h2⟩ := anchors_foldl cw lh x y justify target width color (tokens text)
    ⟨[], [], y, []⟩ rfl (by simp)
  refine ⟨?_, ?_, by rw [renderWrap_eq, renderWrap_eq]⟩
  · rw [renderWrap_eq]
    simp only [List.map_append, List.map_cons, List.map_nil, List.mapIdx_append,
      List.mapIdx_cons, List.mapIdx_nil, List.length_map, Nat.zero_add, ← h1, ← h2]
  · rw [renderWrap_eq]
    simp only [List.length_append, List.length_singleton, Nat.cast_add, Nat.cast_one]
    rw [h2]
    ring

/-! ## `getColor` -/

theorem getColor_scan_none (name : Str) (m : List (Str × Color))
    (h : name ∉ m.map Prod.fst) : getColor_scan name m = none := by
  induction m with
  | nil => rfl
  | cons kv rest ih =>
    obtain ⟨k, v⟩ := kv
    simp only [List.map_cons, List.mem_cons, not_or] at h
    simp only [getColor_scan, h.1, if_false]
    exact ih h.2

theorem getColor_scan_some (name : Str) (c : Color) (m : List (Str × Color))
    (hm : (name, c) ∈ m) (hnd : (m.map Prod.fst).Nodup) : getColor_scan name m = some c := by
  induction m with
  | nil => cases hm
  | cons kv rest ih =>
    obtain ⟨k, v⟩ := kv
    simp only [List.map_cons, List.nodup_cons] at hnd
    rcases List.mem_cons.1 hm with h | h
    · injection h with h1 h2
      subst h1
      subst h2
      simp [getColor_scan]
    · have hk : name ≠ k := by
        rintro rfl
        exact hnd.1 (List.mem_map.2 ⟨(name, c), h, rfl⟩)
      simp only [getColor_scan, hk, if_false]
      exact ih h hnd.2

/-- C12: `getColor` is a total lookup with a default. When `name` is a key of the colour
map (whose keys are distinct, as in a `std::map`) the result is the entry stored under
`name`; when it is not, the result is `FONT_WHITE`, which is `(255, 255, 255)`; and the
engine, its colour map included, is left as it was. -/
theorem getColor_lookup (e : Engine) (name : Str) :
    (∀ c, (name, c) ∈ e.color_map → (e.color_map.map Prod.fst).Nodup →
        (getColor e name).1 = c) ∧
      (name ∉ e.color_map.map Prod.fst → (getColor e name).1 = ⟨255, 255, 255⟩) ∧
      (getColor e name).2 = e := by
  refine ⟨?_, ?_, ?_⟩
  · intro c hc hnd
    simp [getColor, getColor_scan_some name c e.color_map hc hnd]
  · intro h
    simp [getColor, getColor_scan_none name e.color_map h, FONT_WHITE]
  · unfold getColor
    split <;> rfl

theorem getColor_lookup_witness :
    (("menu_bonus".toList, (⟨0, 255, 0⟩ : Color)) ∈
        [("menu_bonus".toList, (⟨0, 255, 0⟩ : Color)),
         ("menu_normal".toList, (⟨200, 200, 200⟩ : Color))] ∧
      ([("menu_bonus".toList, (⟨0, 255, 0⟩ : Color)),
        ("menu_normal".toList, (⟨200, 200, 200⟩ : Color))].map Prod.fst).Nodup ∧
      (getColor ⟨[], [("menu_bonus".toList, ⟨0, 255, 0⟩),
        ("menu_normal".toList, ⟨200, 200, 200⟩)], none, 0⟩ "menu_bonus".toList).1 =
        ⟨0, 255, 0⟩) ∧
      ("nonexistent_key".toList ∉
          [("menu_bonus".toList, (⟨0, 255, 0⟩ : Color)),
           ("menu_normal".toList, (⟨200, 200, 200⟩ : Color))].map Prod.fst ∧
        (getColor ⟨[], [("menu_bonus".toList, ⟨0, 255, 0⟩),
          ("menu_normal".toList, ⟨200, 200, 200⟩)], none, 0⟩ "nonexistent_key".toList).1 =
          ⟨255, 255, 255⟩) :=
  ⟨⟨by decide, by decide,
      (getColor_lookup ⟨[], [("menu_bonus".toList, ⟨0, 255, 0⟩),
        ("menu_normal".toList, ⟨200, 200, 200⟩)], none, 0⟩ "menu_bonus".toList).1
        ⟨0, 255, 0⟩ (by decide) (by decide)⟩,
    ⟨by decide,
      (getColor_lookup ⟨[], [("menu_bonus".toList, ⟨0, 255, 0⟩),
        ("menu_normal".toList, ⟨200, 200, 200⟩)], none, 0⟩ "nonexistent_key".toList).2.1
        (by decide)⟩⟩

/-! ## `setFont` -/

theorem setFont_scan_none (name : Str) (l : List FontStyle) (i : Nat)
    (h : ∀ s ∈ l, s.name ≠ name) : setFont_scan name l i = none := by
  induction l generalizing i with
  | nil => rfl
  | cons s rest ih =>
    simp only [setFont_scan, h s (by simp), if_false]
    exact ih (i + 1) (fun t ht => h t (List.mem_cons_of_mem _ ht))

theorem setFont_scan_some (name : Str) (l : List FontStyle) (i : Nat)
    (h : ∃ s ∈ l, s.name = name) :
    ∃ r, setFont_scan name l i = some (i + r) ∧
      (∃ s, l[r]? = some s ∧ s.name = name) ∧
      ∀ j, j < r → ∀ s, l[j]? = some s → s.name ≠ name := by
  induction l generalizing i with
  | nil =>
    obtain ⟨s, hs, _⟩ := h
    cases hs
  | cons s rest ih =>
    by_cases hn : s.name = name
    · refine ⟨0, by simp [setFont_scan, hn], ⟨s, by simp, hn⟩, ?_⟩
      intro j hj
      omega
    · have hrest : ∃ t ∈ rest, t.name = name := by
        obtain ⟨t, ht, htn⟩ := h
        rcases List.mem_cons.1 ht with rfl | ht
        · exact absurd htn hn
        · exact ⟨t, ht, htn⟩
      obtain ⟨r, hr1, hr2, hr3⟩ := ih (i + 1) hrest
      refine ⟨r + 1, ?_, by simpa using hr2, ?_⟩
      · simp only [setFont_scan, hn, if_false, hr1]
        congr 1
        omega
      · intro j hj t ht
        cases j with
        | zero =>
          simp only [List.getElem?_cons_zero, Option.some.injEq] at ht
          subst ht
          exact hn
        | succ j =>
          simp only [List.getElem?_cons_succ] at ht
          exact hr3 j (by omega) t ht

/-- C13: `setFont` is all-or-nothing with first-match semantics. If some style is named
`name`, the active font becomes the index of a style with that name before which no style
has that name (the first one in insertion order); if none is, the engine is exactly what
it was; the style list, the colour map and `cursor_y` are never changed. -/
theorem setFont_first_match (e : Engine) (name : Str) :
    (setFont e name).font_styles = e.font_styles ∧
      (setFont e name).color_map = e.color_map ∧
      (setFont e name).cursor_y = e.cursor_y ∧
      ((∃ s ∈ e.font_styles, s.name = name) →
        ∃ i, (setFont e name).active_font = some i ∧
          (∃ s, e.font_styles[i]? = some s ∧ s.name = name) ∧
          ∀ j, j < i → ∀ s, e.font_styles[j]? = some s → s.name ≠ name) ∧
      ((∀ s ∈ e.font_styles, s.name ≠ name) → setFont e name = e) := by
  refine ⟨?_, ?_, ?_, ?_, ?_⟩
  · unfold setFont
    split <;> rfl
  · unfold setFont
    split <;> rfl
  · unfold setFont
    split <;> rfl
  · intro h
    obtain ⟨r, hr1, hr2, hr3⟩ := setFont_scan_some name e.font_styles 0 h
    rw [Nat.zero_add] at hr1
    exact ⟨r, by simp [setFont, hr1], hr2, hr3⟩
  · intro h
    simp [setFont, setFont_scan_none name e.font_styles 0 h]

theorem setFont_first_match_witness :
    ((∃ s ∈ sampleStyles, s.name = "font_regular".toList) ∧
      ∃ i, (setFont ⟨sampleStyles, [], some 0, 0⟩ "font_regular".toList).active_font = some i ∧
        (∃ s, sampleStyles[i]? = some s ∧ s.name = "font_regular".toList) ∧
        ∀ j, j < i → ∀ s, sampleStyles[j]? = some s → s.name ≠ "font_regular".toList) ∧
      ((∀ s ∈ sampleStyles, s.name ≠ "font_italic".toList) ∧
        setFont ⟨sampleStyles, [], some 0, 0⟩ "font_italic".toList =
          ⟨sampleStyles, [], some 0, 0⟩) :=
  ⟨⟨by decide,
      (setFont_first_match ⟨sampleStyles, [], some 0, 0⟩ "font_regular".toList).2.2.2.1
        (by decide)⟩,
    ⟨by decide,
      (setFont_first_match ⟨sampleStyles, [], some 0, 0⟩ "font_italic".toList).2.2.2.2
        (by decide)⟩⟩

/-- C14: loading a section `font_regular` whose `default` font fails to open leaves one
style named `font_regular` with the null handle; `setFont("font_regular")` then makes it
the active style (`active_font` is not null, so the constructor goes on), and the active
style has the null handle. -/
theorem setFont_selects_null_handle :
    load_styles "en".toList (fun _ _ => none) (fun _ => 0)
        [⟨true, "font_regular".toList, "default".toList, "missing.ttf".toList, 12, true⟩] =
        [⟨"font_regular".toList, "missing.ttf".toList, 12, true, none, 0, 0⟩] ∧
      (setFont ⟨load_styles "en".toList (fun _ _ => none) (fun _ => 0)
        [⟨true, "font_regular".toList, "default".toList, "missing.ttf".toList, 12, true⟩],
        [], none, 0⟩ "font_regular".toList).active_font = some 0 ∧
      (setFont ⟨load_styles "en".toList (fun _ _ => none) (fun _ => 0)
        [⟨true, "font_regular".toList, "default".toList, "missing.ttf".toList, 12, true⟩],
        [], none, 0⟩ "font_regular".toList).activeStyle =
        some ⟨"font_regular".toList, "missing.ttf".toList, 12, true, none, 0, 0⟩ := by
  decide

/-! ## Loading the styles -/

/-- An entry whose key is neither an applicable `default` nor the language code changes
no style. -/
theorem load_entry_skip (LANGUAGE : Str) (openFont : Str → Int → Option Nat)
    (lineSkip : Nat → Int) (styles : List FontStyle) (style : FontStyle) (en : Entry)
    (hlast : (open_section styles en).getLast? = some style)
    (hkey : ¬ ((en.key = "default".toList ∧ style.path = []) ∨ en.key = LANGUAGE)) :
    load_entry LANGUAGE openFont lineSkip styles en = open_section styles en := by
  unfold load_entry
  simp only [hlast]
  rw [if_neg hkey]

/-- An entry whose key is an applicable `default` or the language code rewrites the last
style with its triple. -/
theorem load_entry_set (LANGUAGE : Str) (openFont : Str → Int → Option Nat)
    (lineSkip : Nat → Int) (styles : List FontStyle) (style : FontStyle) (en : Entry)
    (hlast : (open_section styles en).getLast? = some style)
    (hkey : (en.key = "default".toList ∧ style.path = []) ∨ en.key = LANGUAGE) :
    ∃ s, load_entry LANGUAGE openFont lineSkip styles en =
        (open_section styles en).dropLast ++ [s] ∧
      s.name = style.name ∧ s.path = en.path ∧ s.ptsize = en.ptsize ∧ s.blend = en.blend ∧
      s.ttfont = openFont en.path en.ptsize := by
  unfold load_entry
  simp only [hlast]
  rw [if_pos hkey]
  refine ⟨_, rfl, ?_⟩
  cases openFont en.path en.ptsize <;> simp

theorem load_entry_foldl_skip (LANGUAGE : Str) (openFont : Str → Int → Option Nat)
    (lineSkip : Nat → Int) (styles : List FontStyle) (style : FontStyle)
    (hlast : styles.getLast? = some style) (hpath : style.path ≠ []) (es : List Entry)
    (hes : ∀ en ∈ es, en.new_section = false ∧ en.key ≠ LANGUAGE) :
    es.foldl (load_entry LANGUAGE openFont lineSkip) styles = styles := by
  induction es with
  | nil => rfl
  | cons en rest ih =>
    obtain ⟨h1, h2⟩ := hes en (by simp)
    have hopen : open_section styles en = styles := by simp [open_section, h1]
    rw [List.foldl_cons, load_entry_skip LANGUAGE openFont lineSkip styles style en
      (by rw [hopen]; exact hlast)
      (by
        rintro (⟨_, h⟩ | h)
        · exact hpath h
        · exact h2 h), hopen]
    exact ih (fun x hx => hes x (List.mem_cons_of_mem _ hx))

/-- C15: within one style section the `default` key is first-match-wins. Let `style` be
the style an entry applies to (the last one, after a new section has appended its fresh
style). With a language code other than `default`, a `default` entry changes nothing
once the path is set, and neither does any run of later `default` entries of the section
(nor any run of later entries whose key is not the language code); a `default` entry
fills in path, point size and blend while the path is still empty; and an entry whose key
is the language code always overrides the three. -/
theorem load_entry_first_match (LANGUAGE : Str) (openFont : Str → Int → Option Nat)
    (lineSkip : Nat → Int) (styles : List FontStyle) (style : FontStyle) (en : Entry)
    (hlast : (open_section styles en).getLast? = some style) :
    (LANGUAGE ≠ "default".toList → en.key = "default".toList → style.path ≠ [] →
        load_entry LANGUAGE openFont lineSkip styles en = open_section styles en) ∧
      (LANGUAGE ≠ "default".toList → style.path ≠ [] →
        ∀ es : List Entry, (∀ x ∈ es, x.new_section = false ∧ x.key = "default".toList) →
          es.foldl (load_entry LANGUAGE openFont lineSkip) (open_section styles en) =
            open_section styles en) ∧
      (style.path ≠ [] →
        ∀ es : List Entry, (∀ x ∈ es, x.new_section = false ∧ x.key ≠ LANGUAGE) →
          es.foldl (load_entry LANGUAGE openFont lineSkip) (open_section styles en) =
            open_section styles en) ∧
      (en.key = "default".toList → style.path = [] →
        ∃ s, load_entry LANGUAGE openFont lineSkip styles en =
            (open_section styles en).dropLast ++ [s] ∧
          s.name = style.name ∧ s.path = en.path ∧ s.ptsize = en.ptsize ∧
          s.blend = en.blend) ∧
      (en.key = LANGUAGE →
        ∃ s, load_entry LANGUAGE openFont lineSkip styles en =
            (open_section styles en).dropLast ++ [s] ∧
          s.name = style.name ∧ s.path = en.path ∧ s.ptsize = en.ptsize ∧
          s.blend = en.blend) := by
  refine ⟨?_, ?_, ?_, ?_, ?_⟩
  · intro hL hk hp
    apply load_entry_skip LANGUAGE openFont lineSkip styles style en hlast
    rintro (⟨_, h⟩ | h)
    · exact hp h
    · exact hL (h ▸ hk)
  · intro hL hp es hes
    apply load_entry_foldl_skip LANGUAGE openFont lineSkip _ style hlast hp es
    intro x hx
    exact ⟨(hes x hx).1, fun h => hL (h ▸ (hes x hx).2)⟩
  · intro hp es hes
    exact load_entry_foldl_skip LANGUAGE openFont lineSkip _ style hlast hp es hes
  · intro hk hp
    obtain ⟨s, h2, h3, h4, h5, h6, _⟩ := load_entry_set LANGUAGE openFont lineSkip styles
      style en hlast (Or.inl ⟨hk, hp⟩)
    exact ⟨s, h2, h3, h4, h5, h6⟩
  · intro hk
    obtain ⟨s, h2, h3, h4, h5, h6, _⟩ := load_entry_set LANGUAGE openFont lineSkip styles
      style en hlast (Or.inr hk)
    exact ⟨s, h2, h3, h4, h5, h6⟩

theorem load_entry_first_match_witness :
    (sampleStyles.getLast? =
        some ⟨"font_regular".toList, "x.ttf".toList, 9, false, some 3, 11, 11⟩ ∧
      "fr".toList ≠ "default".toList ∧
      "x.ttf".toList ≠ [] ∧
      load_entry "fr".toList (fun _ _ => some 7) (fun _ => 20) sampleStyles
          ⟨false, "font_regular".toList, "default".toList, "late.ttf".toList, 30, true⟩ =
        sampleStyles) ∧
      ∃ s, load_entry "fr".toList (fun _ _ => some 7) (fun _ => 20) sampleStyles
          ⟨true, "font_new".toList, "fr".toList, "fr.ttf".toList, 30, true⟩ =
          sampleStyles ++ [s] ∧
        s.name = "font_new".toList ∧ s.path = "fr.ttf".toList ∧ s.ptsize = 30 ∧
        s.blend = true :=
  ⟨⟨by decide, by decide, by decide,
      (load_entry_first_match "fr".toList (fun _ _ => some 7) (fun _ => 20) sampleStyles
        ⟨"font_regular".toList, "x.ttf".toList, 9, false, some 3, 11, 11⟩
        ⟨false, "font_regular".toList, "default".toList, "late.ttf".toList, 30, true⟩
        (by decide)).1 (by decide) rfl (by decide)⟩,
    (load_entry_first_match "fr".toList (fun _ _ => some 7) (fun _ => 20) sampleStyles
      ⟨"font_new".toList, [], 0, true, none, 0, 0⟩
      ⟨true, "font_new".toList, "fr".toList, "fr.ttf".toList, 30, true⟩
      (by decide)).2.2.2.2 rfl⟩

/-! ## Termination -/

theorem getNextToken_cursor (s : Str) (c : Nat) (sep : Char) :
    (∀ c2, (getNextToken s c sep).2 = some c2 → c < c2 ∧ c2 ≤ s.length) ∧
      ((getNextToken s c sep).2 = none ↔ sep ∉ s.drop c) := by
  simp only [getNextToken, find_first_of]
  by_cases hm : sep ∈ s.drop c
  · have hlt := List.indexOf_lt_length.2 hm
    simp only [List.length_drop] at hlt
    simp only [hm, if_true, Option.some.injEq, not_true_eq_false, iff_false]
    refine ⟨?_, by simp⟩
    intro c2 h
    omega
  · simp [hm]

/-- C16: `calc_size` terminates. When the text has a first newline at `k`, the two strings
it recurses on, the part before and the part after that newline, are strictly shorter
than the text, and the result is the combination of the two recursive results; without a
newline it is the measuring pass. In the tokenizing loop over `text + " "` each
`getNextToken` either moves the cursor strictly forward, staying within the string, or
sets it to `npos`, which it does exactly when no space is left; so the loop variant
strictly decreases. -/
theorem calc_size_terminates (cw : Str → Int) (lh width : Int) (text : Str) :
    (∀ k, find_first_of text newline 0 = some k →
        (substr text 0 k).length < text.length ∧
        (substr text (k + 1) text.length).length < text.length ∧
        calc_size cw lh width text =
          { x := if (calc_size cw lh width (substr text 0 k)).x >
                  (calc_size cw lh width (substr text (k + 1) text.length)).x
                then (calc_size cw lh width (substr text 0 k)).x
                else (calc_size cw lh width (substr text (k + 1) text.length)).x
            y := (calc_size cw lh width (substr text 0 k)).y +
                  (calc_size cw lh width (substr text (k + 1) text.length)).y }) ∧
      (find_first_of text newline 0 = none →
        calc_size cw lh width text = calc_size_line cw lh width text) ∧
      (∀ c c2, (getNextToken (text ++ [space]) c space).2 = some c2 →
        c < c2 ∧ c2 ≤ (text ++ [space]).length) ∧
      (∀ c, (getNextToken (text ++ [space]) c space).2 = none ↔
        space ∉ (text ++ [space]).drop c) ∧
      (∀ c, cursorMeasure (text ++ [space]) (getNextToken (text ++ [space]) c space).2 <
        cursorMeasure (text ++ [space]) (some c)) := by
  refine ⟨?_, ?_, ?_, ?_, ?_⟩
  · intro k hk
    have hk2 := hk
    simp only [find_first_of, List.drop_zero, Nat.zero_add] at hk2
    split at hk2
    · rename_i hm
      injection hk2 with hk2
      have hlt := List.indexOf_lt_length.2 hm
      refine ⟨?_, ?_, ?_⟩
      · simp only [substr, List.length_take, List.length_drop]
        omega
      · simp only [substr, List.length_take, List.length_drop]
        omega
      · rw [calc_size]
        split
        · rename_i k2 hk3
          rw [hk] at hk3
          injection hk3 with hk3
          subst hk3
          rfl
        · rename_i hk3
          rw [hk] at hk3
          cases hk3
    · cases hk2
  · intro hn
    rw [calc_size]
    split
    · rename_i k2 hk3
      rw [hn] at hk3
      cases hk3
    · rfl
  · intro c c2 h
    exact (getNextToken_cursor (text ++ [space]) c space).1 c2 h
  · intro c
    exact (getNextToken_cursor (text ++ [space]) c space).2
  · intro c
    exact getNextToken_measure (text ++ [space]) c space

theorem calc_size_terminates_witness :
    find_first_of "ab\ncd".toList newline 0 = some 2 ∧
      (substr "ab\ncd".toList 0 2).length < "ab\ncd".toList.length ∧
      (substr "ab\ncd".toList (2 + 1) "ab\ncd".toList.length).length <
        "ab\ncd".toList.length :=
  ⟨by decide,
    ((calc_size_terminates cwFixed 16 40 "ab\ncd".toList).1 2 (by decide)).1,
    ((calc_size_terminates cwFixed 16 40 "ab\ncd".toList).1 2 (by decide)).2.1⟩

/-! ## `calc_size` leaves the engine alone -/

/-- C17: `calc_size` is state-preserving and idempotent. Whenever the call returns, the
engine afterwards is the engine before (same active font, style list, colour map and
`cursor_y`), and calling it again on that engine returns the same point; and it does
return whenever an active style is set. -/
theorem calc_size_preserves_engine (sizeUTF8 : Option Nat → Str → Int) (e : Engine)
    (text : Str) (width : Int) :
    (∀ p e2, Engine.calc_size sizeUTF8 e text width = some (p, e2) →
        e2.active_font = e.active_font ∧ e2.font_styles = e.font_styles ∧
        e2.color_map = e.color_map ∧ e2.cursor_y = e.cursor_y ∧
        Engine.calc_size sizeUTF8 e2 text width = some (p, e2)) ∧
      (∀ s, e.activeStyle = some s →
        Engine.calc_size sizeUTF8 e text width =
          some (calc_size (sizeUTF8 s.ttfont) s.line_height width text, e)) := by
  constructor
  · intro p e2 h
    have h2 := h
    unfold Engine.calc_size at h2
    split at h2
    · cases h2
    · injection h2 with h2
      injection h2 with h3 h4
      subst h4
      exact ⟨rfl, rfl, rfl, rfl, h⟩
  · intro s hs
    unfold Engine.calc_size
    rw [hs]

theorem calc_size_preserves_engine_witness :
    Engine.activeStyle ⟨sampleStyles, [], some 1, 5⟩ =
        some ⟨"font_regular".toList, "r.ttf".toList, 10, true, some 2, 12, 12⟩ ∧
      Engine.calc_size (fun _ s => cwFixed s) ⟨sampleStyles, [], some 1, 5⟩
          "aaa bbb".toList 40 =
        some (calc_size (fun s => cwFixed s) 12 40 "aaa bbb".toList,
          ⟨sampleStyles, [], some 1, 5⟩) ∧
      Engine.calc_size (fun _ s => cwFixed s) ⟨sampleStyles, [], some 1, 5⟩
          "aaa bbb".toList 40 =
        some (calc_size (fun s => cwFixed s) 12 40 "aaa bbb".toList,
          ⟨sampleStyles, [], some 1, 5⟩) :=
  have h := (calc_size_preserves_engine (fun _ s => cwFixed s) ⟨sampleStyles, [], some 1, 5⟩
    "aaa bbb".toList 40).2 ⟨"font_regular".toList, "r.ttf".toList, 10, true, some 2, 12, 12⟩
    (by decide)
  ⟨by decide, h,
    ((calc_size_preserves_engine (fun _ s => cwFixed s) ⟨sampleStyles, [], some 1, 5⟩
      "aaa bbb".toList 40).1 _ _ h).2.2.2.2⟩

/-! ## Line counts -/

theorem renderWrap_calls_pos (cw : Str → Int) (lh cursor_y : Int) (text : Str)
    (x y justify : Int) (target : Option Nat) (width : Int) (color : Color) :
    1 ≤ (renderWrap cw lh cursor_y text x y justify target width color).calls.length := by
  rw [renderWrap_eq]
  simp

/-- The measuring pass counts one line height per line the renderer emits. -/
theorem calc_size_line_height (cw : Str → Int) (lh width : Int) (text : Str) :
    (calc_size_line cw lh width text).y =
      ((renderWrap cw lh 0 text 0 0 JUSTIFY_LEFT none width FONT_WHITE).calls.length : Int) *
        lh := by
  rw [calc_size_line_eq, renderWrap_eq]
  have key := lockstep_foldl cw lh 0 JUSTIFY_LEFT none width FONT_WHITE (tokens text)
    ⟨[], [], 0, 0⟩ ⟨[], [], 0, []⟩ rfl rfl (by simp)
  simp only [List.length_append, List.length_singleton, Nat.cast_add, Nat.cast_one, key.2]
  ring

theorem calc_size_height_aux (cw : Str → Int) (lh width : Int) (n : Nat) :
    ∀ text : Str, text.length ≤ n →
      ∃ m : Nat, text.count newline + 1 ≤ m ∧
        (calc_size cw lh width text).y = (m : Int) * lh := by
  induction n with
  | zero =>
    intro text hlen
    have : text = [] := List.length_eq_zero.1 (Nat.le_zero.1 hlen)
    subst this
    rw [calc_size_of_not_mem cw lh width [] (by simp), calc_size_line_height]
    have hpos := renderWrap_calls_pos cw lh 0 [] 0 0 JUSTIFY_LEFT none width FONT_WHITE
    exact ⟨_, by simpa using hpos, rfl⟩
  | succ n ih =>
    intro text hlen
    by_cases hm : newline ∈ text
    · obtain ⟨hs, hnot⟩ := split_at_indexOf newline text hm
      generalize text.take (text.indexOf newline) = a at hs hnot
      generalize text.drop (text.indexOf newline + 1) = b at hs
      subst hs
      have ha : a.length ≤ n := by
        simp only [List.length_append, List.length_cons] at hlen
        omega
      have hb : b.length ≤ n := by
        simp only [List.length_append, List.length_cons] at hlen
        omega
      obtain ⟨m1, hm1, e1⟩ := ih a ha
      obtain ⟨m2, hm2, e2⟩ := ih b hb
      rw [calc_size_first_newline cw lh width a b hnot]
      refine ⟨m1 + m2, ?_, ?_⟩
      · simp only [List.count_append, List.count_cons_self,
          List.count_eq_zero_of_not_mem hnot]
        omega
      · simp only [e1, e2, Nat.cast_add]
        ring
    · rw [calc_size_of_not_mem cw lh width text hm, calc_size_line_height,
        List.count_eq_zero_of_not_mem hm]
      have hpos := renderWrap_calls_pos cw lh 0 text 0 0 JUSTIFY_LEFT none width FONT_WHITE
      exact ⟨_, by simpa using hpos, rfl⟩

/-- C18: for every text, width and measurement function the height `calc_size` reports is
`n` line heights for a natural number `n` of at least one more than the number of
newlines in the text; the word-wrapping `render` always emits at least one line; and the
empty text is one line high whenever the empty string fits in the width. -/
theorem calc_size_height_lines (cw : Str → Int) (lh cursor_y : Int) (text : Str)
    (x y justify : Int) (target : Option Nat) (width : Int) (color : Color) :
    (∃ n : Nat, text.count newline + 1 ≤ n ∧
        (calc_size cw lh width text).y = (n : Int) * lh) ∧
      1 ≤ (renderWrap cw lh cursor_y text x y justify target width color).calls.length ∧
      (cw [] ≤ width → (calc_size cw lh width []).y = lh) := by
  refine ⟨calc_size_height_aux cw lh width text.length text (Nat.le_refl _),
    renderWrap_calls_pos cw lh cursor_y text x y justify target width color, ?_⟩
  intro h
  apply calc_size_nobreak_line cw lh width [] (by simp)
  intro p hp
  have : p = [] := by
    simp only [candidates, List.mem_filter, List.mem_inits] at hp
    exact List.prefix_nil.1 hp.1
  rw [this]
  exact h

theorem calc_size_height_lines_witness :
    cwFixed [] ≤ 40 ∧ (calc_size cwFixed 16 40 []).y = 16 :=
  ⟨by decide,
    (calc_size_height_lines cwFixed 16 0 "aaa bbb".toList 0 0 JUSTIFY_LEFT none 40
      FONT_WHITE).2.2 (by decide)⟩

/-! ## Newlines in the word-wrapping `render` -/

/-- When no candidate of the whole text is over the width the word-wrapping loop never
breaks: it emits nothing and leaves `cursor_y` alone. -/
theorem render_nobreak_foldl (cw : Str → Int) (lh x y justify : Int) (target : Option Nat)
    (width : Int) (color : Color) (text : Str) (H : ∀ p ∈ candidates text, cw p ≤ width) :
    ((tokens text).foldl (fun s t => render_step cw lh x justify target width color t s)
        ⟨[], [], y, []⟩).calls = [] ∧
      ((tokens text).foldl (fun s t => render_step cw lh x justify target width color t s)
        ⟨[], [], y, []⟩).cursor_y = y := by
  have h1 := (lockstep_foldl cw 1 x justify target width color (tokens text)
    ⟨[], [], 0, 0⟩ ⟨[], [], y, []⟩ rfl rfl (by simp)).2
  have h0 := nobreak_tokenize cw 1 width text H (text ++ [space]) [] [] ⟨[], [], 0, 0⟩
    (by simp) rfl
  have hl := (lines_foldl cw lh 1 x x justify justify target target width color color
    (tokens text) ⟨[], [], y, []⟩ ⟨[], [], y, []⟩ rfl rfl rfl).2
  have hlen := congrArg List.length hl
  simp only [List.length_map] at hlen
  simp only [tokens] at h1 h0 hlen ⊢
  rw [h0] at h1
  have hz : ((tokenize space (text ++ [space]) []).foldl
      (fun s t => render_step cw lh x justify target width color t s)
      ⟨[], [], y, []⟩).calls.length = 0 := by
    rw [hlen]
    have : (0 : Int) = (((tokenize space (text ++ [space]) []).foldl
      (fun s t => render_step cw 1 x justify target width color t s)
      ⟨[], [], y, []⟩).calls.length : Int) := by simpa using h1
    exact_mod_cast this.symm
  have hy := (anchors_foldl cw lh x y justify target width color
    (tokenize space (text ++ [space]) []) ⟨[], [], y, []⟩ rfl (by simp)).2
  rw [hz] at hy
  exact ⟨List.length_eq_zero.1 hz, by simpa using hy⟩

/-- C19: the word-wrapping `render` does not break at newlines while `calc_size` does. For
a text with `k ≥ 1` newlines in which no candidate probed by either is over the width
(the candidates of the whole text for `render`, those of each newline-delimited segment
for `calc_size`), `render` emits exactly one line and advances `cursor_y` by one line
height, whereas `calc_size` reports `k + 1` line heights; so for a non-zero line height
the two disagree. -/
theorem render_ignores_newlines (cw : Str → Int) (lh cursor_y : Int) (text : Str) (k : Nat)
    (x y justify : Int) (target : Option Nat) (width : Int) (color : Color)
    (hk : text.count newline = k) (hk1 : 1 ≤ k)
    (Hr : ∀ p ∈ candidates text, cw p ≤ width)
    (Hs : ∀ seg ∈ text.splitOn newline, ∀ p ∈ candidates seg, cw p ≤ width) :
    (renderWrap cw lh cursor_y text x y justify target width color).calls.length = 1 ∧
      (renderWrap cw lh cursor_y text x y justify target width color).cursor_y = y + lh ∧
      (calc_size cw lh width text).y = ((k : Int) + 1) * lh ∧
      (lh ≠ 0 →
        ((renderWrap cw lh cursor_y text x y justify target width color).calls.length : Int) *
          lh ≠ (calc_size cw lh width text).y) := by
  obtain ⟨hc, hy⟩ := render_nobreak_foldl cw lh x y justify target width color text Hr
  have hsize : (calc_size cw lh width text).y = ((k : Int) + 1) * lh := by
    subst hk
    exact calc_size_nobreak_aux cw lh width text.length text (Nat.le_refl _) Hs
  have hlen : (renderWrap cw lh cursor_y text x y justify target width color).calls.length
      = 1 := by
    rw [renderWrap_eq]
    simp [hc]
  refine ⟨hlen, ?_, hsize, ?_⟩
  · rw [renderWrap_eq]
    simp [hy]
  · intro hlh
    rw [hlen, hsize]
    intro h
    have h2 : (k : Int) * lh = 0 := by
      have : ((1 : Nat) : Int) * lh = ((k : Int) + 1) * lh := h
      simp only [Nat.cast_one] at this
      linarith
    rcases mul_eq_zero.1 h2 with h3 | h3
    · have : k = 0 := by exact_mod_cast h3
      omega
    · exact hlh h3

theorem render_ignores_newlines_witness :
    ("ab\ncd".toList).count newline = 1 ∧
      (∀ p ∈ candidates "ab\ncd".toList, cwFixed p ≤ 60) ∧
      (∀ seg ∈ ("ab\ncd".toList).splitOn newline, ∀ p ∈ candidates seg, cwFixed p ≤ 60) ∧
      (renderWrap cwFixed 16 0 "ab\ncd".toList 5 7 JUSTIFY_LEFT none 60
        FONT_WHITE).calls.length = 1 ∧
      (calc_size cwFixed 16 60 "ab\ncd".toList).y = ((1 : Nat) + 1 : Int) * 16 :=
  have h := render_ignores_newlines cwFixed 16 0 "ab\ncd".toList 1 5 7 JUSTIFY_LEFT none 60
    FONT_WHITE (by decide) (by decide) (by decide) (by decide)
  ⟨by decide, by decide, by decide, h.1, h.2.2.1⟩

end FontEngine
